import Mathlib

/-!
# cla: the command-list launcher (`cmd/cla/main.go`)

A shallow embedding of the list state machine of `main.go` and of its synchronisation
with the persisted JSON file, followed by the properties proved about it.

Modelling conventions:

* A Go `string` is its sequence of bytes, `GoString := List Nat`, every element a byte.
* A Go `int` is an `Int`; the range of the 64-bit type is the predicate `IsInt64`.
* A Go slice is a `List`; the `nil` slice and the empty slice are both `[]`.
* The packages `unicode/utf8` and `encoding/json` of the Go standard library and the
  text input of `charmbracelet/bubbles` are not part of the repository; the functions of
  them that `main.go` calls are modelled here, on the values that `main.go` passes.
* The configuration package (`cfg.Config`) is a parameter, the structure `Env`.
* `Update` is modelled on key messages; opening, reading and writing the file succeed,
  so the only fatal error left is a file that `json.Unmarshal` rejects.
-/

namespace Cla

/-! ## The data model and `removeElementOfData` -/

/-- A Go string: its sequence of bytes. -/
abbrev GoString := List Nat

/-- The Go `type Data struct { ID int; Cmd string }` (main.go, lines 52-55). -/
structure Data where
  ID : Int
  Cmd : GoString
  deriving DecidableEq, Repr

/-- The body of the `for i, d := range datas` loop of `removeElementOfData`
(main.go, lines 154-161): `i` is the range index, `dataID` the running counter
and `newDatas` the slice built so far. -/
def removeLoop (rmLIdx : Int) : List Data → Int → Int → List Data → List Data
  | [], _, _, newDatas => newDatas
  | d :: rest, i, dataID, newDatas =>
    if i = rmLIdx then
      removeLoop rmLIdx rest (i + 1) dataID newDatas
    else
      removeLoop rmLIdx rest (i + 1) (dataID + 1) (newDatas ++ [{ d with ID := dataID }])

/-- The Go `removeElementOfData` (main.go, lines 151-163). -/
def removeElementOfData (datas : List Data) (rmLIdx : Int) : List Data :=
  removeLoop rmLIdx datas 0 0 []

/-- Reindexing as the specification words it: every entry's position becomes its
0-based index in the list (counted from `k`). -/
def reindexFrom : Int → List Data → List Data
  | _, [] => []
  | k, d :: rest => { d with ID := k } :: reindexFrom (k + 1) rest

/-- The specification's `removeAt`: delete the entry at position `i` (nothing when
`i` is outside `[0, len - 1]`), then reindex densely from 0. -/
def removeAtSpec (datas : List Data) (i : Int) : List Data :=
  reindexFrom 0 (if 0 ≤ i ∧ i < datas.length then datas.eraseIdx i.toNat else datas)

/-- The list invariant of the data model: every entry's position is its 0-based index. -/
def PositionsDense (l : List Data) : Prop :=
  ∀ (k : Nat) (d : Data), l[k]? = some d → d.ID = (k : Int)

/-! ## UTF-8 (Go package `unicode/utf8`) -/

/-- The Go `utf8.RuneError`, U+FFFD. -/
def RuneError : Nat := 0xFFFD

/-- Model of Go's `utf8.AppendRune` / `utf8.EncodeRune`: the UTF-8 bytes of rune `r`;
surrogates and runes above U+10FFFF are encoded as `RuneError`. -/
def encodeRune (r : Nat) : List Nat :=
  if r < 0x80 then [r]
  else if r < 0x800 then [0xC0 + r / 64, 0x80 + r % 64]
  else if 0x10FFFF < r ∨ (0xD800 ≤ r ∧ r ≤ 0xDFFF) then [0xEF, 0xBF, 0xBD]
  else if r < 0x10000 then [0xE0 + r / 4096, 0x80 + r / 64 % 64, 0x80 + r % 64]
  else [0xF0 + r / 262144, 0x80 + r / 4096 % 64, 0x80 + r / 64 % 64, 0x80 + r % 64]

/-- The entry of Go's `utf8.first` table joined with `acceptRanges` for a leading byte
`b ≥ 0x80`: `none` for an invalid leading byte (`xx`), else the sequence length and
the accepted range of the second byte. -/
def firstInfo (b : Nat) : Option (Nat × Nat × Nat) :=
  if b < 0xC2 then none
  else if b < 0xE0 then some (2, 0x80, 0xBF)
  else if b = 0xE0 then some (3, 0xA0, 0xBF)
  else if b < 0xED then some (3, 0x80, 0xBF)
  else if b = 0xED then some (3, 0x80, 0x9F)
  else if b < 0xF0 then some (3, 0x80, 0xBF)
  else if b = 0xF0 then some (4, 0x90, 0xBF)
  else if b < 0xF4 then some (4, 0x80, 0xBF)
  else if b = 0xF4 then some (4, 0x80, 0x8F)
  else none

/-- Is `b` a UTF-8 continuation byte (`locb ≤ b ≤ hicb`)? -/
def isCont (b : Nat) : Bool := 0x80 ≤ b && b ≤ 0xBF

/-- Model of Go's `utf8.DecodeRune` / `utf8.DecodeRuneInString`: the first rune of `s`
and its width in bytes; `(RuneError, 0)` on the empty string and `(RuneError, 1)` on an
invalid encoding. -/
def decodeRune (s : List Nat) : Nat × Nat :=
  match s with
  | [] => (RuneError, 0)
  | s0 :: t =>
    if s0 < 0x80 then (s0, 1)
    else
      match firstInfo s0 with
      | none => (RuneError, 1)
      | some (sz, lo, hi) =>
        if s.length < sz then (RuneError, 1)
        else
          match t with
          | [] => (RuneError, 1)
          | s1 :: t1 =>
            if s1 < lo ∨ hi < s1 then (RuneError, 1)
            else if sz ≤ 2 then (s0 % 32 * 64 + s1 % 64, 2)
            else
              match t1 with
              | [] => (RuneError, 1)
              | s2 :: t2 =>
                if !isCont s2 then (RuneError, 1)
                else if sz ≤ 3 then (s0 % 16 * 4096 + s1 % 64 * 64 + s2 % 64, 3)
                else
                  match t2 with
                  | [] => (RuneError, 1)
                  | s3 :: _ =>
                    if !isCont s3 then (RuneError, 1)
                    else (s0 % 8 * 262144 + s1 % 64 * 4096 + s2 % 64 * 64 + s3 % 64, 4)

/-- The Go conversion `[]rune(s)`, by repeated `decodeRune`; `fuel` bounds the number
of runes and `s.length` always suffices. -/
def toRunesAux : Nat → List Nat → List Nat
  | 0, _ => []
  | fuel + 1, s =>
    match s with
    | [] => []
    | _ :: _ => (decodeRune s).1 :: toRunesAux fuel (s.drop (decodeRune s).2)

/-- The Go conversion `[]rune(s)`. -/
def toRunes (s : GoString) : List Nat := toRunesAux s.length s

/-- The Go conversion `string(runes)` of a rune slice. -/
def fromRunes (rs : List Nat) : GoString := rs.flatMap encodeRune

/-- The loop of `validString`; `fuel` bounds the number of runes. -/
def validStringAux : Nat → List Nat → Bool
  | 0, s => s.isEmpty
  | fuel + 1, s =>
    match s with
    | [] => true
    | _ :: _ =>
      if (decodeRune s).1 = RuneError ∧ (decodeRune s).2 = 1 then false
      else validStringAux fuel (s.drop (decodeRune s).2)

/-- Model of Go's `utf8.ValidString`: does `s` consist entirely of valid UTF-8-encoded
runes, that is, does no `decodeRune` along `s` report an invalid encoding? -/
def validString (s : GoString) : Bool := validStringAux s.length s

/-- A Unicode scalar value: a code point that is not a surrogate. -/
def IsScalar (n : Nat) : Prop := n < 0xD800 ∨ (0xDFFF < n ∧ n < 0x110000)

/-- The UTF-8 bytes of a text given as Unicode scalar values: the well-formed Go strings. -/
def utf8 (cs : List Char) : GoString := cs.flatMap (fun c => encodeRune c.toNat)

/-- The well-formed Go strings: the UTF-8 encodings of texts. -/
def ValidUTF8 (s : GoString) : Prop := ∃ cs : List Char, s = utf8 cs

/-- The bytes of an ASCII literal of the source text. -/
def lit (s : String) : GoString := s.toList.map Char.toNat

/-! ## JSON encoding (Go package `encoding/json`, `Marshal`) -/

/-- The byte `hex[n]` of Go's `const hex = "0123456789abcdef"`. -/
def hexDigit (n : Nat) : Nat := if n < 10 then 48 + n else 87 + n

/-- Go's `htmlSafeSet[b]` for an ASCII byte: true for the bytes that `Marshal` copies
unescaped, that is all of 0x20..0x7F except the double quote, the ampersand, the angle
brackets and the backslash. -/
def htmlSafe (b : Nat) : Bool :=
  0x20 ≤ b && b < 0x80 && b != 34 && b != 38 && b != 60 && b != 62 && b != 92

/-- The escape `Marshal` writes for an ASCII byte outside `htmlSafeSet`
(the `switch b` of `appendString`). -/
def escapeByte (b : Nat) : List Nat :=
  if b = 92 ∨ b = 34 then [92, b]
  else if b = 8 then [92, 98]
  else if b = 12 then [92, 102]
  else if b = 10 then [92, 110]
  else if b = 13 then [92, 114]
  else if b = 9 then [92, 116]
  else [92, 117, 48, 48, hexDigit (b / 16), hexDigit (b % 16)]

/-- The loop of Go's `appendString(dst, src, escapeHTML = true)`: the escaped body of
the JSON string for `src`; `fuel` bounds the iterations and `src.length` suffices. -/
def quoteBody : Nat → List Nat → List Nat
  | 0, _ => []
  | fuel + 1, s =>
    match s with
    | [] => []
    | b :: rest =>
      if b < 0x80 then
        (if htmlSafe b then [b] else escapeByte b) ++ quoteBody fuel rest
      else
        let (c, size) := decodeRune s
        if c = RuneError ∧ size = 1 then
          lit "\\ufffd" ++ quoteBody fuel (s.drop size)
        else if c = 0x2028 ∨ c = 0x2029 then
          lit "\\u202" ++ [hexDigit (c % 16)] ++ quoteBody fuel (s.drop size)
        else
          s.take size ++ quoteBody fuel (s.drop size)

/-- Model of Go's `appendString`: the JSON string literal for `src`, quotes included. -/
def appendString (src : GoString) : List Nat :=
  [34] ++ quoteBody src.length src ++ [34]

/-- The escaped form that `appendString` gives the character with code point `n`. -/
def quoteChar (n : Nat) : List Nat :=
  if n < 0x80 then (if htmlSafe n then [n] else escapeByte n)
  else if n = 0x2028 ∨ n = 0x2029 then lit "\\u202" ++ [hexDigit (n % 16)]
  else encodeRune n

/-- Decimal digits of `n`, most significant first, prepended to `acc`. -/
def natDigits : Nat → Nat → List Nat → List Nat
  | 0, _, acc => acc
  | fuel + 1, n, acc =>
    if n < 10 then (48 + n) :: acc
    else natDigits fuel (n / 10) ((48 + n % 10) :: acc)

/-- Model of Go's `strconv.AppendInt(nil, i, 10)`. -/
def formatInt (i : Int) : List Nat :=
  if i < 0 then 45 :: natDigits (i.natAbs + 1) i.natAbs []
  else natDigits (i.natAbs + 1) i.natAbs []

/-- The encoding `json.Marshal` gives a `Data` value:
an object with the keys `id` and `cmd` in declaration order. -/
def marshalData (d : Data) : List Nat :=
  lit "\x7b\"id\":" ++ formatInt d.ID ++ lit ",\"cmd\":" ++ appendString d.Cmd ++ lit "\x7d"

/-- Elements of a JSON array separated by commas. -/
def marshalElems : List Data → List Nat
  | [] => []
  | [d] => marshalData d
  | d :: rest => marshalData d ++ [44] ++ marshalElems rest

/-- Model of `json.Marshal(datas)` for `datas []Data`. The empty list stands for the
`nil` slice, encoded as `null`: every empty slice that main.go marshals is `nil`
(`var newDatas []Data` at lines 152 and 244). -/
def jsonMarshal (datas : List Data) : GoString :=
  match datas with
  | [] => lit "null"
  | _ :: _ => [91] ++ marshalElems datas ++ [93]

/-! ## JSON decoding (Go package `encoding/json`, `Unmarshal` into `*[]Data`)

`Unmarshal` first validates the whole input (`checkValid`) and then stores the values,
recording a type mismatch as an error; `readFromJSON` exits on any error, so the model
is one pass that yields `none` on a syntax error as well as on a type mismatch. -/

/-- JSON white space (`isSpace` of the scanner): space, tab, carriage return, line feed. -/
def isSpace (b : Nat) : Bool := b = 32 || b = 9 || b = 13 || b = 10

/-- Skip leading white space. -/
def skipSpace : List Nat → List Nat
  | [] => []
  | b :: rest => if isSpace b then skipSpace rest else b :: rest

/-- The value of a hexadecimal digit byte. -/
def hexVal (b : Nat) : Option Nat :=
  if 48 ≤ b ∧ b ≤ 57 then some (b - 48)
  else if 97 ≤ b ∧ b ≤ 102 then some (b - 87)
  else if 65 ≤ b ∧ b ≤ 70 then some (b - 55)
  else none

/-- Model of the decoder's `getu4`: the rune of a leading `\uXXXX` escape, `none` for
Go's `-1`. -/
def getu4 (s : List Nat) : Option Nat :=
  match s with
  | b0 :: b1 :: h0 :: h1 :: h2 :: h3 :: _ =>
    if b0 = 92 ∧ b1 = 117 then
      match hexVal h0, hexVal h1, hexVal h2, hexVal h3 with
      | some a, some b, some c, some d => some (((a * 16 + b) * 16 + c) * 16 + d)
      | _, _, _, _ => none
    else none
  | _ => none

/-- The body of a JSON string literal, the opening quote already consumed: the scanner's
validation (`stateInString`, `stateInStringEsc...`) fused with `unquoteBytes`. Returns the
unquoted bytes and the input after the closing quote. Raw bytes from 0x80 on are coerced
to well-formed UTF-8 (`DecodeRune` then `EncodeRune`), unpaired surrogate escapes become
U+FFFD. `fuel` bounds the iterations; `s.length` suffices. -/
def parseStringBody : Nat → List Nat → Option (List Nat × List Nat)
  | 0, _ => none
  | fuel + 1, s =>
    match s with
    | [] => none
    | c :: rest =>
      if c = 34 then some ([], rest)
      else if c = 92 then
        match rest with
        | [] => none
        | e :: rest2 =>
          let simple (b : Nat) : Option (List Nat × List Nat) :=
            (parseStringBody fuel rest2).map (fun p => (b :: p.1, p.2))
          if e = 34 ∨ e = 92 ∨ e = 47 then simple e
          else if e = 98 then simple 8
          else if e = 102 then simple 12
          else if e = 110 then simple 10
          else if e = 114 then simple 13
          else if e = 116 then simple 9
          else if e = 117 then
            match getu4 s with
            | none => none
            | some rr =>
              let s6 := s.drop 6
              let single (r : Nat) : Option (List Nat × List Nat) :=
                (parseStringBody fuel s6).map (fun p => (encodeRune r ++ p.1, p.2))
              if 0xD800 ≤ rr ∧ rr < 0xE000 then
                match getu4 s6 with
                | some rr1 =>
                  if rr < 0xDC00 ∧ 0xDC00 ≤ rr1 ∧ rr1 < 0xE000 then
                    (parseStringBody fuel (s6.drop 6)).map (fun p =>
                      (encodeRune ((rr - 0xD800) * 1024 + (rr1 - 0xDC00) + 0x10000) ++ p.1, p.2))
                  else single RuneError
                | none => single RuneError
              else single rr
          else none
      else if c < 32 then none
      else if c < 0x80 then
        (parseStringBody fuel rest).map (fun p => (c :: p.1, p.2))
      else
        (parseStringBody fuel (s.drop (decodeRune s).2)).map (fun p =>
          (encodeRune (decodeRune s).1 ++ p.1, p.2))

/-- A JSON string literal whose opening quote has been consumed. -/
def parseString (s : List Nat) : Option (List Nat × List Nat) :=
  parseStringBody s.length s

/-- Is `b` an ASCII decimal digit? -/
def isDigit (b : Nat) : Bool := 48 ≤ b && b ≤ 57

/-- The longest prefix of digits, and the rest. -/
def spanDigits : List Nat → List Nat × List Nat
  | [] => ([], [])
  | b :: rest =>
    if isDigit b then ((spanDigits rest).1.cons b, (spanDigits rest).2)
    else ([], b :: rest)

/-- One or more digits (states `stateDot0`, `stateE0`). -/
def scanDigits1 (s : List Nat) : Option (List Nat × List Nat) :=
  match spanDigits s with
  | ([], _) => none
  | (ds, rest) => some (ds, rest)

/-- The optional exponent of a number literal (states `stateE`, `stateESign`, `stateE0`). -/
def scanExp (s : List Nat) : Option (List Nat × List Nat) :=
  match s with
  | e :: rest =>
    if e = 101 ∨ e = 69 then
      match rest with
      | sg :: rest2 =>
        if sg = 43 ∨ sg = 45 then
          (scanDigits1 rest2).map (fun p => (e :: sg :: p.1, p.2))
        else (scanDigits1 rest).map (fun p => (e :: p.1, p.2))
      | [] => none
    else some ([], s)
  | [] => some ([], s)

/-- The optional fraction and exponent of a number literal (states `state0`, `stateDot`,
`stateDot0`). -/
def scanFracExp (s : List Nat) : Option (List Nat × List Nat) :=
  match s with
  | d :: rest =>
    if d = 46 then
      match scanDigits1 rest with
      | none => none
      | some (ds, rest2) => (scanExp rest2).map (fun p => (d :: ds ++ p.1, p.2))
    else scanExp s
  | [] => some ([], s)

/-- The integer part of a number literal, the sign excluded (states `state0`, `state1`). -/
def scanIntPart (s : List Nat) : Option (List Nat × List Nat) :=
  match s with
  | d :: rest =>
    if d = 48 then some ([d], rest)
    else if isDigit d then some (spanDigits s)
    else none
  | [] => none

/-- A JSON number literal as the scanner accepts it: the literal and the rest. -/
def scanNumber (s : List Nat) : Option (List Nat × List Nat) :=
  match s with
  | c :: rest =>
    if c = 45 then
      match scanIntPart rest with
      | none => none
      | some (ip, r) => (scanFracExp r).map (fun p => (c :: ip ++ p.1, p.2))
    else
      match scanIntPart s with
      | none => none
      | some (ip, r) => (scanFracExp r).map (fun p => (ip ++ p.1, p.2))
  | [] => none

/-- The value of a sequence of decimal digits, `none` when a byte is not a digit. -/
def parseUint : List Nat → Nat → Option Nat
  | [], acc => some acc
  | b :: rest, acc => if isDigit b then parseUint rest (acc * 10 + (b - 48)) else none

/-- Model of Go's `strconv.ParseInt(s, 10, 64)`: an optional sign, at least one digit,
only digits, and a value in the range of `int64`. -/
def parseInt (s : List Nat) : Option Int :=
  match s with
  | [] => none
  | c :: rest =>
    if c = 45 then
      match rest with
      | [] => none
      | _ :: _ =>
        match parseUint rest 0 with
        | some n => if n ≤ 2 ^ 63 then some (-(n : Int)) else none
        | none => none
    else
      let digits := if c = 43 then rest else s
      match digits with
      | [] => none
      | _ :: _ =>
        match parseUint digits 0 with
        | some n => if n < 2 ^ 63 then some (n : Int) else none
        | none => none

/-- Remove the prefix `p` from `s`, `none` when `s` does not start with `p`. -/
def expect : List Nat → List Nat → Option (List Nat)
  | [], s => some s
  | _ :: _, [] => none
  | a :: p, b :: s => if a = b then expect p s else none

/-- The scanner's `maxNestingDepth`. -/
def maxNestingDepth : Nat := 10000

mutual
/-- Skip one JSON value of any shape (the value of a key that `Data` does not have):
the scanner's validation only. `depth` is the number of open arrays and objects. -/
def skipValue : Nat → Nat → List Nat → Option (List Nat)
  | 0, _, _ => none
  | fuel + 1, depth, s =>
    match s with
    | [] => none
    | c :: rest =>
      if c = 34 then (parseString rest).map (fun p => p.2)
      else if c = 123 then
        if maxNestingDepth < depth + 1 then none
        else
          match skipSpace rest with
          | [] => none
          | k :: r => if k = 125 then some r else skipMembers fuel (depth + 1) (k :: r)
      else if c = 91 then
        if maxNestingDepth < depth + 1 then none
        else
          match skipSpace rest with
          | [] => none
          | k :: r => if k = 93 then some r else skipElems fuel (depth + 1) (k :: r)
      else if c = 116 then expect (lit "rue") rest
      else if c = 102 then expect (lit "alse") rest
      else if c = 110 then expect (lit "ull") rest
      else (scanNumber s).map (fun p => p.2)
/-- Skip the elements of an array up to and including the closing bracket. -/
def skipElems : Nat → Nat → List Nat → Option (List Nat)
  | 0, _, _ => none
  | fuel + 1, depth, s =>
    match skipValue fuel depth s with
    | none => none
    | some r =>
      match skipSpace r with
      | [] => none
      | k :: r2 =>
        if k = 44 then skipElems fuel depth (skipSpace r2)
        else if k = 93 then some r2
        else none
/-- Skip the members of an object up to and including the closing brace. -/
def skipMembers : Nat → Nat → List Nat → Option (List Nat)
  | 0, _, _ => none
  | fuel + 1, depth, s =>
    match s with
    | [] => none
    | q :: r0 =>
      if q = 34 then
        match parseString r0 with
        | none => none
        | some (_, r1) =>
          match skipSpace r1 with
          | [] => none
          | col :: r2 =>
            if col = 58 then
              match skipValue fuel depth (skipSpace r2) with
              | none => none
              | some r3 =>
                match skipSpace r3 with
                | [] => none
                | k :: r4 =>
                  if k = 44 then skipMembers fuel depth (skipSpace r4)
                  else if k = 125 then some r4
                  else none
            else none
      else none
end

/-- ASCII upper-casing of a byte (the decoder matches keys case-insensitively). -/
def foldByte (b : Nat) : Nat := if 97 ≤ b ∧ b ≤ 122 then b - 32 else b

/-- Store the value that starts at `s` into the field of `d` named by `key`:
`id` takes a number that `parseInt` accepts, `cmd` takes a string, `null` leaves either
unchanged, any other value for them is a type error; a value of an unknown key is
skipped. -/
def storeField (key : List Nat) (d : Data) (s : List Nat) : Option (Data × List Nat) :=
  if key.map foldByte = lit "ID" then
    match s with
    | [] => none
    | c :: rest =>
      if c = 110 then (expect (lit "ull") rest).map (fun r => (d, r))
      else if c = 45 ∨ isDigit c then
        match scanNumber s with
        | none => none
        | some (num, r) => (parseInt num).map (fun n => ({ d with ID := n }, r))
      else none
  else if key.map foldByte = lit "CMD" then
    match s with
    | [] => none
    | c :: rest =>
      if c = 110 then (expect (lit "ull") rest).map (fun r => (d, r))
      else if c = 34 then (parseString rest).map (fun p => ({ d with Cmd := p.1 }, p.2))
      else none
  else (skipValue s.length 2 s).map (fun r => (d, r))

/-- The members of an object decoded into a `Data`, from the opening quote of a key up to
and including the closing brace. -/
def parseMembers : Nat → Data → List Nat → Option (Data × List Nat)
  | 0, _, _ => none
  | fuel + 1, d, s =>
    match s with
    | [] => none
    | q :: r0 =>
      if q = 34 then
        match parseString r0 with
        | none => none
        | some (key, r1) =>
          match skipSpace r1 with
          | [] => none
          | col :: r2 =>
            if col = 58 then
              match storeField key d (skipSpace r2) with
              | none => none
              | some (d2, r3) =>
                match skipSpace r3 with
                | [] => none
                | k :: r4 =>
                  if k = 44 then parseMembers fuel d2 (skipSpace r4)
                  else if k = 125 then some (d2, r4)
                  else none
            else none
      else none

/-- One array element decoded into a fresh `Data`: an object, or `null` (which leaves the
zero value); anything else is a type error. -/
def parseData (s : List Nat) : Option (Data × List Nat) :=
  match s with
  | [] => none
  | c :: rest =>
    if c = 123 then
      match skipSpace rest with
      | [] => none
      | k :: r => if k = 125 then some (⟨0, []⟩, r) else parseMembers (k :: r).length ⟨0, []⟩ (k :: r)
    else if c = 110 then (expect (lit "ull") rest).map (fun r => (⟨0, []⟩, r))
    else none

/-- The elements of the top-level array, up to and including the closing bracket. -/
def parseElems : Nat → List Nat → Option (List Data × List Nat)
  | 0, _ => none
  | fuel + 1, s =>
    match parseData s with
    | none => none
    | some (d, r) =>
      match skipSpace r with
      | [] => none
      | k :: r2 =>
        if k = 44 then (parseElems fuel (skipSpace r2)).map (fun p => (d :: p.1, p.2))
        else if k = 93 then some ([d], r2)
        else none

/-- The top-level value: an array of `Data`, or `null` (the `nil` slice). -/
def parseTop (s : List Nat) : Option (List Data × List Nat) :=
  match s with
  | [] => none
  | c :: rest =>
    if c = 91 then
      match skipSpace rest with
      | [] => none
      | k :: r => if k = 93 then some ([], r) else parseElems (k :: r).length (k :: r)
    else if c = 110 then (expect (lit "ull") rest).map (fun r => ([], r))
    else none

/-- Model of `json.Unmarshal(bytes, &datas)` for `var datas []Data`: `some datas` on
success, `none` when `Unmarshal` returns an error. -/
def jsonUnmarshal (bytes : GoString) : Option (List Data) :=
  match parseTop (skipSpace bytes) with
  | none => none
  | some (datas, rest) =>
    match skipSpace rest with
    | [] => some datas
    | _ :: _ => none

/-- The range of the Go type `int` (64 bits). -/
def IsInt64 (i : Int) : Prop := -(2 ^ 63) ≤ i ∧ i < 2 ^ 63

instance (i : Int) : Decidable (IsInt64 i) := by
  unfold IsInt64; infer_instance

/-- The entries that a program can hold and write without loss: the position is in the
range of `int` and the command is well-formed UTF-8. -/
def Data.WellFormed (d : Data) : Prop := IsInt64 d.ID ∧ validString d.Cmd = true

instance (d : Data) : Decidable d.WellFormed := by
  unfold Data.WellFormed; infer_instance

/-! ## Storage (main.go, `readFromJSON`, `writeToFile`) -/

/-- The file `dataFile`: `none` while it does not exist, else its bytes. Operating-system
failures (permissions, disk) are not modelled: opening, reading and writing succeed. -/
abbrev Storage := Option GoString

/-- The text `"[" + string(s) + "]"` with `s, _ := json.Marshal(Data{0, ""})`
(main.go, lines 134-136). -/
def initialJSON : GoString := [91] ++ marshalData ⟨0, []⟩ ++ [93]

/-- The Go `writeToFile(bytes, dataFile)` (main.go, lines 165-170). -/
def writeToFile (bytes : GoString) : Storage := some bytes

/-- The Go `readFromJSON(dataFile)` (main.go, lines 111-149): the decoded list, or `none`
when `json.Unmarshal` fails (`outErrorExit`), together with the file afterwards. The file
is created when missing (`os.O_CREATE`), and a file of size zero is first filled with
`initialJSON`. -/
def readFromJSON (file : Storage) : Option (List Data) × Storage :=
  let bytes := file.getD []
  if bytes.length = 0 then
    (jsonUnmarshal initialJSON, writeToFile initialJSON)
  else
    (jsonUnmarshal bytes, some bytes)

/-! ## The text input component (`github.com/charmbracelet/bubbles/textinput`) -/

/-- The fields of `textinput.Model` that main.go reads or writes; `value` is the rune
slice behind `Value()` and `SetValue`. -/
structure TextInput where
  value : List Nat
  focus : Bool
  Prompt : String
  TextColor : String
  Placeholder : String
  CharLimit : Int
  Width : Int
  deriving DecidableEq, Repr

namespace TextInput

/-- The library's `NewModel()`. -/
def NewModel : TextInput :=
  { value := [], focus := false, Prompt := "> ", TextColor := "", Placeholder := "",
    CharLimit := 0, Width := 0 }

/-- The library's `SetValue(s)`: the runes of `s`, cut to `CharLimit` when that is positive. -/
def SetValue (tm : TextInput) (s : GoString) : TextInput :=
  let runes := toRunes s
  if 0 < tm.CharLimit ∧ tm.CharLimit < runes.length then
    { tm with value := runes.take tm.CharLimit.toNat }
  else { tm with value := runes }

/-- The library's `Value()`: `string(m.value)`. -/
def Value (tm : TextInput) : GoString := fromRunes tm.value

/-- The library's `Focus()`. -/
def Focus (tm : TextInput) : TextInput := { tm with focus := true }

/-- The library's `Blur()`. -/
def Blur (tm : TextInput) : TextInput := { tm with focus := false }

/-- The library's `Update(msg)` on a key message: an input without focus does not respond;
the editing done by a focused input is the parameter `edit`. -/
def Update (edit : String → TextInput → TextInput) (msg : String) (tm : TextInput) : TextInput :=
  if tm.focus then edit msg tm else tm

end TextInput

/-! ## The session (main.go, `model`, `initialModel`, `Update`) -/

/-- The package-level variables of main.go that come from the configuration package
(lines 20-33), and the editing behaviour of the text input library. -/
structure Env where
  focusedPrompt : String
  focusedTextColor : String
  limitLineNumber : Int
  execKey : String
  saveKey : String
  delKey : String
  addKey : String
  quitKey : String
  edit : String → TextInput → TextInput

/-- The Go `blurredPrompt`. -/
def blurredPrompt : String := "  "

/-- The Go `type model struct` (main.go, lines 88-92); what is sent on the channel
`choice` is part of `Step`. -/
structure model where
  index : Int
  cmdInputs : List TextInput
  deriving DecidableEq, Repr

/-- How a call of `Update` ends. -/
inductive Step where
  /-- The handler returned `m, nil` or `m, cmd`: the session goes on with `m`. -/
  | next (m : model)
  /-- The handler returned `m, tea.Quit`; `choice` is the string sent on `m.choice`,
  `none` when the channel was closed without a value. -/
  | quit (m : model) (choice : Option GoString)
  /-- A Go run-time panic: index or slice bounds out of range. -/
  | panic
  /-- The process ended in `outErrorExit`. -/
  | exit
  deriving DecidableEq, Repr

/-- The loop of `initialModel` (main.go, lines 174-188), `i` the range index. -/
def initialInputs (env : Env) : List Data → Int → List TextInput
  | [], _ => []
  | j :: rest, i =>
    let tm := TextInput.NewModel
    let tm :=
      if i = 0 then
        { tm.Focus with TextColor := env.focusedTextColor, Prompt := env.focusedPrompt }
      else { tm with Prompt := blurredPrompt }
    let tm := { tm with Placeholder := "Input any command." }
    let tm := tm.SetValue j.Cmd
    let tm := { tm with CharLimit := 99, Width := 99 }
    tm :: initialInputs env rest (i + 1)

/-- The Go `initialModel` (main.go, lines 172-190): `none` when `readFromJSON` exits. -/
def initialModel (env : Env) (file : Storage) : Option model × Storage :=
  match readFromJSON file with
  | (none, file1) => (none, file1)
  | (some datas, file1) => (some ⟨0, initialInputs env datas 0⟩, file1)

/-- The input `tm` that `addModel` builds (main.go, lines 193-198): empty, without focus,
with the blurred prompt. -/
def addedInput : TextInput :=
  TextInput.SetValue
    { TextInput.NewModel with
      Placeholder := "Input any command."
      Prompt := blurredPrompt
      CharLimit := 99
      Width := 99 } []

/-- The Go `addModel` (main.go, lines 192-200). -/
def model.addModel (m : model) : model :=
  { m with cmdInputs := m.cmdInputs ++ [addedInput] }

/-- The Go `removeModel` (main.go, lines 202-207): `none` when the slice expression
`m.cmdInputs[:i]` panics, that is when `i < 0`. -/
def model.removeModel (m : model) (i : Int) : Option model :=
  if (m.cmdInputs.length : Int) ≤ i then some m
  else if i < 0 then none
  else some { m with cmdInputs := m.cmdInputs.take i.toNat ++ m.cmdInputs.drop (i.toNat + 1) }

/-- The Go `updateInputs` (main.go, lines 313-325): every input handles the message. -/
def updateInputs (env : Env) (msg : String) (m : model) : model :=
  { m with cmdInputs := m.cmdInputs.map (TextInput.Update env.edit msg) }

/-- The save loop (main.go, lines 246-250), `i` the loop counter. -/
def saveLoop : List TextInput → Int → List Data
  | [], _ => []
  | tm :: rest, i => ⟨i, tm.Value⟩ :: saveLoop rest (i + 1)

/-- The loop that sets the focused state (main.go, lines 287-299), `i` the loop counter. -/
def focusLoop (env : Env) (index : Int) : List TextInput → Int → List TextInput
  | [], _ => []
  | tm :: rest, i =>
    (if i = index then
      { tm.Focus with Prompt := env.focusedPrompt, TextColor := env.focusedTextColor }
    else
      { tm.Blur with Prompt := blurredPrompt, TextColor := "" }) :: focusLoop env index rest (i + 1)

/-- The element `m.cmdInputs[i]` for a Go `int` index: `none` when the index expression
panics. -/
def inputAt (inputs : List TextInput) (i : Int) : Option TextInput :=
  if i < 0 then none else inputs[i.toNat]?

/-- The part of `Update` from "Cycle indexes" on (main.go, lines 272-301). -/
def cycle (env : Env) (m : model) (s : String) : model :=
  let index := if s = "up" ∨ s = "shift+tab" then m.index - 1 else m.index + 1
  let index := if index > (m.cmdInputs.length : Int) - 1 then 0 else index
  let index := if index < 0 then (m.cmdInputs.length : Int) - 1 else index
  { index := index, cmdInputs := focusLoop env index m.cmdInputs 0 }

/-- The part of `Update` after the save and delete branches (main.go, lines 267-301). -/
def execOrCycle (env : Env) (m : model) (file : Storage) (s : String) : Step × Storage :=
  if s = env.execKey then
    match inputAt m.cmdInputs m.index with
    | none => (Step.panic, file)
    | some tm => (Step.quit m (some tm.Value), file)
  else (Step.next (cycle env m s), file)

/-- The Go `Update` on a key message `msg` with `key = msg.String()` (main.go,
lines 215-308): the way the call ends and the file afterwards. -/
def Update (env : Env) (m : model) (file : Storage) (key : String) : Step × Storage :=
  if key = env.quitKey then (Step.quit m none, file)
  else if key = env.addKey then
    if env.limitLineNumber ≤ (m.cmdInputs.length : Int) then (Step.next m, file)
    else
      match readFromJSON file with
      | (none, file1) => (Step.exit, file1)
      | (some newDatas, _) =>
        let tailNumber : Int := m.cmdInputs.length
        let emptyData : Data := ⟨tailNumber, []⟩
        let newDatas := newDatas ++ [emptyData]
        let file2 := writeToFile (jsonMarshal newDatas)
        (Step.next (updateInputs env key m.addModel), file2)
  else if key = "tab" ∨ key = "shift+tab" ∨ key = env.execKey ∨ key = "up" ∨ key = "down"
      ∨ key = env.saveKey ∨ key = env.delKey then
    if key = env.saveKey then
      let newDatas := saveLoop m.cmdInputs 0
      execOrCycle env m (writeToFile (jsonMarshal newDatas)) key
    else if key = env.delKey then
      match readFromJSON file with
      | (none, file1) => (Step.exit, file1)
      | (some oldDatas, _) =>
        let newDatas := removeElementOfData oldDatas m.index
        let file2 := writeToFile (jsonMarshal newDatas)
        match m.removeModel m.index with
        | none => (Step.panic, file2)
        | some m1 =>
          let m2 : model :=
            if m1.index > (m1.cmdInputs.length : Int) - 1 then { m1 with index := -2 }
            else { m1 with index := m1.index - 1 }
          execOrCycle env m2 file2 key
    else execOrCycle env m file key
  else (Step.next (updateInputs env key m), file)

/-- A session: the key messages are handled in order until one ends the session. -/
def run (env : Env) : model → Storage → List String → Step × Storage
  | m, file, [] => (Step.next m, file)
  | m, file, key :: keys =>
    match Update env m file key with
    | (Step.next m1, file1) => run env m1 file1 keys
    | other => other

/-- The session from program start: `initialModel`, then the key messages. -/
def session (env : Env) (file : Storage) (keys : List String) : Step × Storage :=
  match initialModel env file with
  | (none, file1) => (Step.exit, file1)
  | (some m, file1) => run env m file1 keys

/-- The requirement on the configuration: the five bound keys are mutually distinct and
distinct from the navigation keys `tab`, `shift+tab`, `up` and `down`. -/
def KeysDistinct (env : Env) : Prop :=
  [env.execKey, env.saveKey, env.delKey, env.addKey, env.quitKey,
    "tab", "shift+tab", "up", "down"].Nodup

instance (env : Env) : Decidable (KeysDistinct env) := by
  unfold KeysDistinct; infer_instance

/-! ## Example values -/

/-- An example configuration: the keys are mutually distinct and distinct from the
navigation keys; the line limit is `limit`; a focused input appends `x` on the key `x`. -/
def exampleEnv (limit : Int) : Env :=
  { focusedPrompt := "> ", focusedTextColor := "205", limitLineNumber := limit,
    execKey := "enter", saveKey := "ctrl+s", delKey := "ctrl+d", addKey := "ctrl+a",
    quitKey := "ctrl+c",
    edit := fun msg tm => if msg = "x" then { tm with value := tm.value ++ [120] } else tm }

/-- An example list of three entries. -/
def exampleDatas : List Data := [⟨0, lit "ls"⟩, ⟨1, lit "pwd"⟩, ⟨2, lit "date"⟩]

/-- The file that holds `exampleDatas`. -/
def exampleFile : Storage := some (jsonMarshal exampleDatas)

/-- The session state loaded from `exampleFile`, with the focus index set to `i`. -/
def exampleModel (i : Int) : model := ⟨i, initialInputs (exampleEnv 10) exampleDatas 0⟩

/-- A file that holds the single entry `ls`. -/
def singleFile : Storage := some (jsonMarshal [⟨0, lit "ls"⟩])

/-- The session state that `initialModel` loads from `singleFile`. -/
def singleModel : model := ⟨0, initialInputs (exampleEnv 10) [⟨0, lit "ls"⟩] 0⟩

theorem reindexFrom_length (k : Int) (l : List Data) : (reindexFrom k l).length = l.length := by
  induction l generalizing k with
  | nil => rfl
  | cons d rest ih => simp [reindexFrom, ih]

theorem reindexFrom_getElem? (k : Int) (l : List Data) (j : Nat) :
    (reindexFrom k l)[j]? = (l[j]?).map (fun d => { d with ID := k + j }) := by
  induction l generalizing k j with
  | nil => simp [reindexFrom]
  | cons d rest ih =>
    cases j with
    | zero => simp [reindexFrom]
    | succ j =>
      simp only [reindexFrom, List.getElem?_cons_succ, ih]
      have : k + 1 + (j : Int) = k + ((j + 1 : Nat) : Int) := by push_cast; ring
      rw [this]

theorem removeLoop_eq (r : Int) (l : List Data) (i dataID : Int) (acc : List Data) :
    removeLoop r l i dataID acc =
      acc ++ reindexFrom dataID
        (if 0 ≤ r - i ∧ r - i < l.length then l.eraseIdx (r - i).toNat else l) := by
  induction l generalizing i dataID acc with
  | nil => simp [removeLoop, reindexFrom]
  | cons d rest ih =>
    unfold removeLoop
    by_cases h : i = r
    · subst h
      simp only [if_true, ih]
      have h1 : ¬ (0 ≤ i - (i + 1) ∧ i - (i + 1) < (rest.length : Int)) := by omega
      simp [h1]
    · simp only [if_neg h, ih, List.append_assoc, List.singleton_append]
      by_cases h2 : 0 ≤ r - i ∧ r - i < ((d :: rest).length : Int)
      · have h3 : 0 ≤ r - (i + 1) ∧ r - (i + 1) < (rest.length : Int) := by
          simp only [List.length_cons] at h2; push_cast at h2; omega
        rw [if_pos h2, if_pos h3]
        obtain ⟨n, hn⟩ : ∃ n : Nat, (r - (i + 1)).toNat = n := ⟨_, rfl⟩
        have h4 : (r - i).toNat = n + 1 := by omega
        rw [hn, h4]
        simp [reindexFrom]
      · have h3 : ¬ (0 ≤ r - (i + 1) ∧ r - (i + 1) < (rest.length : Int)) := by
          simp only [List.length_cons] at h2; push_cast at h2; omega
        rw [if_neg h2, if_neg h3]
        simp [reindexFrom]

/-- C1: `removeElementOfData datas i` is the list obtained by deleting position `i`
(nothing when `i` is out of range) and renumbering the remaining entries densely from
0, keeping order and `Cmd`; hence the `k`-th result entry has `ID = k`, and the
scenario `[{0,"ls"},{1,"pwd"}]`, `i = 0` gives `[{0,"pwd"}]`. -/
theorem removeElementOfData_spec (datas : List Data) (i : Int) :
    removeElementOfData datas i = removeAtSpec datas i ∧
    (removeElementOfData datas i).length =
      (if 0 ≤ i ∧ i < datas.length then datas.length - 1 else datas.length) ∧
    (∀ k : Nat, k < (removeElementOfData datas i).length →
      ((removeElementOfData datas i)[k]?).map Data.ID = some (k : Int) ∧
      ((removeElementOfData datas i)[k]?).map Data.Cmd =
        (datas[if 0 ≤ i ∧ i ≤ k then k + 1 else k]?).map Data.Cmd) ∧
    removeElementOfData [⟨0, [108, 115]⟩, ⟨1, [112, 119, 100]⟩] 0 = [⟨0, [112, 119, 100]⟩] := by
  have heq : removeElementOfData datas i = removeAtSpec datas i := by
    simp [removeElementOfData, removeAtSpec, removeLoop_eq]
  refine ⟨heq, ?_, ?_, by decide⟩
  · rw [heq, removeAtSpec, reindexFrom_length]
    split
    · rw [List.length_eraseIdx]; rename_i h; rw [if_pos (by omega)]
    · rfl
  · intro k hk
    rw [heq] at hk ⊢
    unfold removeAtSpec at hk ⊢
    rw [reindexFrom_length] at hk
    rw [reindexFrom_getElem?]
    by_cases h : 0 ≤ i ∧ i < datas.length
    · rw [if_pos h] at hk ⊢
      rw [List.getElem?_eraseIdx]
      by_cases hki : (k : Int) < i
      · have h1 : k < i.toNat := by omega
        have h2 : ¬ (0 ≤ i ∧ i ≤ (k : Int)) := by omega
        rw [if_pos h1, if_neg h2]
        have hk2 : k < datas.length := by rw [List.length_eraseIdx] at hk; split at hk <;> omega
        simp [List.getElem?_eq_getElem hk2]
      · have h1 : ¬ k < i.toNat := by omega
        have h2 : (0 ≤ i ∧ i ≤ (k : Int)) := by omega
        rw [if_neg h1, if_pos h2]
        have hk2 : k + 1 < datas.length := by
          rw [List.length_eraseIdx] at hk; split at hk <;> omega
        simp [List.getElem?_eq_getElem hk2]
    · rw [if_neg h] at hk ⊢
      have h2 : ¬ (0 ≤ i ∧ i ≤ (k : Int)) := by omega
      rw [if_neg h2]
      simp [List.getElem?_eq_getElem hk]

/-! ## The session state machine -/

theorem keysDistinct_iff (env : Env) : KeysDistinct env ↔
    (env.execKey ≠ env.saveKey ∧ env.execKey ≠ env.delKey ∧ env.execKey ≠ env.addKey ∧
      env.execKey ≠ env.quitKey ∧ env.execKey ≠ "tab" ∧ env.execKey ≠ "shift+tab" ∧
      env.execKey ≠ "up" ∧ env.execKey ≠ "down") ∧
    (env.saveKey ≠ env.delKey ∧ env.saveKey ≠ env.addKey ∧ env.saveKey ≠ env.quitKey ∧
      env.saveKey ≠ "tab" ∧ env.saveKey ≠ "shift+tab" ∧ env.saveKey ≠ "up" ∧
      env.saveKey ≠ "down") ∧
    (env.delKey ≠ env.addKey ∧ env.delKey ≠ env.quitKey ∧ env.delKey ≠ "tab" ∧
      env.delKey ≠ "shift+tab" ∧ env.delKey ≠ "up" ∧ env.delKey ≠ "down") ∧
    (env.addKey ≠ env.quitKey ∧ env.addKey ≠ "tab" ∧ env.addKey ≠ "shift+tab" ∧
      env.addKey ≠ "up" ∧ env.addKey ≠ "down") ∧
    (env.quitKey ≠ "tab" ∧ env.quitKey ≠ "shift+tab" ∧ env.quitKey ≠ "up" ∧
      env.quitKey ≠ "down") := by
  unfold KeysDistinct
  simp only [List.nodup_cons, List.mem_cons, List.mem_singleton, not_or, List.not_mem_nil,
    not_false_eq_true, List.nodup_nil, and_true, ne_eq]
  constructor
  · rintro ⟨h1, h2, h3, h4, h5, -⟩
    exact ⟨h1, h2, h3, h4, h5⟩
  · rintro ⟨h1, h2, h3, h4, h5⟩
    exact ⟨h1, h2, h3, h4, h5, by decide⟩

theorem focusLoop_length (env : Env) (index : Int) (l : List TextInput) (i : Int) :
    (focusLoop env index l i).length = l.length := by
  induction l generalizing i with
  | nil => rfl
  | cons tm rest ih => simp [focusLoop, ih]

theorem cycle_length (env : Env) (m : model) (s : String) :
    (cycle env m s).cmdInputs.length = m.cmdInputs.length := by
  simp [cycle, focusLoop_length]

theorem update_nav (env : Env) (m : model) (file : Storage) (key : String)
    (hcfg : KeysDistinct env)
    (hk : key = "tab" ∨ key = "down" ∨ key = "up" ∨ key = "shift+tab") :
    Update env m file key = (Step.next (cycle env m key), file) := by
  obtain ⟨⟨-, -, -, -, e1, e2, e3, e4⟩, ⟨-, -, -, s1, s2, s3, s4⟩, ⟨-, -, d1, d2, d3, d4⟩,
    ⟨-, a1, a2, a3, a4⟩, q1, q2, q3, q4⟩ := (keysDistinct_iff env).1 hcfg
  have hq : key ≠ env.quitKey := by rcases hk with h | h | h | h <;> subst h <;> exact Ne.symm ‹_›
  have ha : key ≠ env.addKey := by rcases hk with h | h | h | h <;> subst h <;> exact Ne.symm ‹_›
  have hs : key ≠ env.saveKey := by rcases hk with h | h | h | h <;> subst h <;> exact Ne.symm ‹_›
  have hd : key ≠ env.delKey := by rcases hk with h | h | h | h <;> subst h <;> exact Ne.symm ‹_›
  have he : key ≠ env.execKey := by rcases hk with h | h | h | h <;> subst h <;> exact Ne.symm ‹_›
  have hin : key = "tab" ∨ key = "shift+tab" ∨ key = env.execKey ∨ key = "up" ∨ key = "down"
      ∨ key = env.saveKey ∨ key = env.delKey := by
    rcases hk with h | h | h | h <;> simp [h]
  simp only [Update, if_neg hq, if_neg ha, if_pos hin, if_neg hs, if_neg hd, execOrCycle,
    if_neg he]

/-- C4: with the focus index `i` in `[0, n-1]` of a list of `n` entries, `tab` and `down`
move the focus to `i+1`, or to `0` from `n-1`; `up` and `shift+tab` move it to `i-1`, or to
`n-1` from `0`; the new focus is in `[0, n-1]`, the list keeps its length and the file is
not touched. -/
theorem navigation_wraparound (env : Env) (m : model) (file : Storage) (key : String)
    (hcfg : KeysDistinct env) (h0 : 0 ≤ m.index) (h1 : m.index < m.cmdInputs.length) :
    (key = "tab" ∨ key = "down" →
      ∃ m1, Update env m file key = (Step.next m1, file) ∧
        m1.index = (if m.index < (m.cmdInputs.length : Int) - 1 then m.index + 1 else 0) ∧
        m1.cmdInputs.length = m.cmdInputs.length ∧
        0 ≤ m1.index ∧ m1.index < m.cmdInputs.length) ∧
    (key = "up" ∨ key = "shift+tab" →
      ∃ m1, Update env m file key = (Step.next m1, file) ∧
        m1.index = (if 0 < m.index then m.index - 1 else (m.cmdInputs.length : Int) - 1) ∧
        m1.cmdInputs.length = m.cmdInputs.length ∧
        0 ≤ m1.index ∧ m1.index < m.cmdInputs.length) := by
  constructor
  · intro hk
    have hnav : key = "tab" ∨ key = "down" ∨ key = "up" ∨ key = "shift+tab" := by
      rcases hk with h | h <;> simp [h]
    have hnup : ¬ (key = "up" ∨ key = "shift+tab") := by
      rcases hk with h | h <;> subst h <;> decide
    refine ⟨cycle env m key, update_nav env m file key hcfg hnav, ?_, cycle_length env m key, ?_, ?_⟩
    all_goals simp only [cycle, if_neg hnup]
    all_goals split_ifs <;> omega
  · intro hk
    have hnav : key = "tab" ∨ key = "down" ∨ key = "up" ∨ key = "shift+tab" := by
      rcases hk with h | h <;> simp [h]
    refine ⟨cycle env m key, update_nav env m file key hcfg hnav, ?_, cycle_length env m key, ?_, ?_⟩
    all_goals simp only [cycle, if_pos hk]
    all_goals split_ifs <;> omega

/-- Witness of `navigation_wraparound`: `tab` at focus 2 of the three example entries
wraps to 0. -/
theorem navigation_wraparound_witness :
    KeysDistinct (exampleEnv 10) ∧
    ∃ m1, Update (exampleEnv 10) (exampleModel 2) exampleFile "tab" = (Step.next m1, exampleFile) ∧
      m1.index = 0 :=
  ⟨by decide,
    let ⟨m1, h1, h2, _⟩ := (navigation_wraparound (exampleEnv 10) (exampleModel 2) exampleFile
      "tab" (by decide) (by decide) (by decide)).1 (Or.inl rfl)
    ⟨m1, h1, h2.trans (by decide)⟩⟩

theorem update_add (env : Env) (m : model) (file : Storage) (key : String)
    (hcfg : KeysDistinct env) (hk : key = env.addKey) :
    Update env m file key =
      if env.limitLineNumber ≤ (m.cmdInputs.length : Int) then (Step.next m, file)
      else
        match readFromJSON file with
        | (none, file1) => (Step.exit, file1)
        | (some newDatas, _) =>
          (Step.next (updateInputs env key m.addModel),
            writeToFile (jsonMarshal (newDatas ++ [⟨(m.cmdInputs.length : Int), []⟩]))) := by
  obtain ⟨-, -, -, ⟨a0, -⟩, -⟩ := (keysDistinct_iff env).1 hcfg
  have hq : key ≠ env.quitKey := by rw [hk]; exact a0
  simp only [Update, if_neg hq, if_pos hk]

theorem addModel_length (m : model) : m.addModel.cmdInputs.length = m.cmdInputs.length + 1 := by
  simp [model.addModel]

theorem updateInputs_length (env : Env) (msg : String) (m : model) :
    (updateInputs env msg m).cmdInputs.length = m.cmdInputs.length := by
  simp [updateInputs]

/-- C5: when the in-memory list has reached the configured limit the add key changes
nothing (same model, same file); and from an empty in-memory list with limit 1 and a
readable file, two add keys end with exactly one in-memory entry, the file holding the
reloaded list with one entry appended by the first add key only. -/
theorem add_at_limit_noop (env : Env) (m : model) (file : Storage) (key : String)
    (hcfg : KeysDistinct env) (hk : key = env.addKey) :
    (env.limitLineNumber ≤ (m.cmdInputs.length : Int) →
      Update env m file key = (Step.next m, file)) ∧
    (∀ datas, env.limitLineNumber = 1 → m.cmdInputs = [] →
      (readFromJSON file).1 = some datas →
      ∃ m2, run env m file [key, key] =
          (Step.next m2, writeToFile (jsonMarshal (datas ++ [⟨0, []⟩]))) ∧
        m2.cmdInputs.length = 1 ∧ m2.index = m.index) := by
  constructor
  · intro hlim
    rw [update_add env m file key hcfg hk, if_pos hlim]
  · intro datas hlim hm hr
    have h1 : Update env m file key =
        (Step.next (updateInputs env key m.addModel),
          writeToFile (jsonMarshal (datas ++ [⟨0, []⟩]))) := by
      rw [update_add env m file key hcfg hk, if_neg (by rw [hlim, hm]; simp)]
      rcases hrf : readFromJSON file with ⟨r, f1⟩
      rw [hrf] at hr
      simp only at hr
      subst hr
      simp [hm]
    have hlen : (updateInputs env key m.addModel).cmdInputs.length = 1 := by
      rw [updateInputs_length, addModel_length, hm]; rfl
    have h2 : Update env (updateInputs env key m.addModel)
        (writeToFile (jsonMarshal (datas ++ [⟨0, []⟩]))) key =
        (Step.next (updateInputs env key m.addModel),
          writeToFile (jsonMarshal (datas ++ [⟨0, []⟩]))) := by
      rw [update_add env _ _ key hcfg hk, if_pos (by rw [hlim, hlen]; simp)]
    refine ⟨updateInputs env key m.addModel, ?_, hlen, ?_⟩
    · simp only [run, h1, h2]
    · simp [updateInputs, model.addModel]

/-- Witness of `add_at_limit_noop`: limit 1, empty in-memory list, file holding `null`. -/
theorem add_at_limit_noop_witness :
    KeysDistinct (exampleEnv 1) ∧
    ∃ m2, run (exampleEnv 1) ⟨0, []⟩ (some (lit "null")) ["ctrl+a", "ctrl+a"] =
        (Step.next m2, writeToFile (jsonMarshal ([] ++ [⟨0, []⟩]))) ∧
      m2.cmdInputs.length = 1 ∧ m2.index = 0 :=
  ⟨by decide,
    (add_at_limit_noop (exampleEnv 1) ⟨0, []⟩ (some (lit "null")) "ctrl+a" (by decide) rfl).2
      [] rfl rfl (by decide)⟩

theorem saveLoop_length (l : List TextInput) (i : Int) : (saveLoop l i).length = l.length := by
  induction l generalizing i with
  | nil => rfl
  | cons tm rest ih => simp [saveLoop, ih]

theorem saveLoop_getElem? (l : List TextInput) (i : Int) (k : Nat) :
    (saveLoop l i)[k]? = (l[k]?).map (fun tm => (⟨i + k, tm.Value⟩ : Data)) := by
  induction l generalizing i k with
  | nil => simp [saveLoop]
  | cons tm rest ih =>
    cases k with
    | zero => simp [saveLoop]
    | succ k =>
      simp only [saveLoop, List.getElem?_cons_succ, ih]
      have : i + 1 + (k : Int) = i + ((k + 1 : Nat) : Int) := by push_cast; ring
      rw [this]

theorem update_save (env : Env) (m : model) (file : Storage) (key : String)
    (hcfg : KeysDistinct env) (hk : key = env.saveKey) :
    Update env m file key =
      (Step.next (cycle env m key), writeToFile (jsonMarshal (saveLoop m.cmdInputs 0))) := by
  obtain ⟨⟨e0, -⟩, ⟨-, s1, s2, -⟩, -⟩ := (keysDistinct_iff env).1 hcfg
  have hq : key ≠ env.quitKey := by rw [hk]; exact s2
  have ha : key ≠ env.addKey := by rw [hk]; exact s1
  have he : key ≠ env.execKey := by rw [hk]; exact Ne.symm e0
  have hin : key = "tab" ∨ key = "shift+tab" ∨ key = env.execKey ∨ key = "up" ∨ key = "down"
      ∨ key = env.saveKey ∨ key = env.delKey := by simp [hk]
  simp only [Update, if_neg hq, if_neg ha, if_pos hin, if_pos hk, execOrCycle, if_neg he]

/-- C7: the save key writes the encoding of the list that has one entry per in-memory
entry, in order, the `i`-th with position `i` and with the current text of the `i`-th
input; the file written does not depend on the previous file content. -/
theorem save_writes_memory (env : Env) (m : model) (file : Storage) (key : String)
    (hcfg : KeysDistinct env) (hk : key = env.saveKey) :
    (Update env m file key).2 = some (jsonMarshal (saveLoop m.cmdInputs 0)) ∧
    (saveLoop m.cmdInputs 0).length = m.cmdInputs.length ∧
    (∀ (i : Nat) (tm : TextInput), m.cmdInputs[i]? = some tm →
      (saveLoop m.cmdInputs 0)[i]? = some ⟨(i : Int), tm.Value⟩) ∧
    (∀ file2 : Storage, (Update env m file2 key).2 = (Update env m file key).2) := by
  refine ⟨?_, saveLoop_length _ _, ?_, ?_⟩
  · rw [update_save env m file key hcfg hk]; rfl
  · intro i tm h
    rw [saveLoop_getElem?, h]; simp
  · intro file2
    rw [update_save env m file key hcfg hk, update_save env m file2 key hcfg hk]

/-- Witness of `save_writes_memory`: the example session with the focus on entry 0. -/
theorem save_writes_memory_witness :
    KeysDistinct (exampleEnv 10) ∧
    (Update (exampleEnv 10) (exampleModel 0) none "ctrl+s").2 = exampleFile :=
  ⟨by decide,
    (save_writes_memory (exampleEnv 10) (exampleModel 0) none "ctrl+s" (by decide) rfl).1.trans
      (by decide)⟩

theorem inputAt_eq (l : List TextInput) (i : Int) (h0 : 0 ≤ i) (h1 : i < l.length) :
    ∃ tm, l[i.toNat]? = some tm ∧ inputAt l i = some tm := by
  have h2 : i.toNat < l.length := by omega
  refine ⟨l[i.toNat], List.getElem?_eq_getElem h2, ?_⟩
  simp only [inputAt, if_neg (not_lt.2 h0)]
  exact List.getElem?_eq_getElem h2

/-- C9: with the focus index `i` in range, the execute key ends the session and emits
exactly the current text of the `i`-th in-memory input; the file is left as it was. -/
theorem execute_emits_focused (env : Env) (m : model) (file : Storage) (key : String)
    (hcfg : KeysDistinct env) (hk : key = env.execKey)
    (h0 : 0 ≤ m.index) (h1 : m.index < m.cmdInputs.length) :
    ∃ tm, m.cmdInputs[m.index.toNat]? = some tm ∧
      Update env m file key = (Step.quit m (some tm.Value), file) := by
  obtain ⟨⟨e0, e1, e2, e3, -⟩, -⟩ := (keysDistinct_iff env).1 hcfg
  have hq : key ≠ env.quitKey := by rw [hk]; exact e3
  have ha : key ≠ env.addKey := by rw [hk]; exact e2
  have hs : key ≠ env.saveKey := by rw [hk]; exact e0
  have hd : key ≠ env.delKey := by rw [hk]; exact e1
  have hin : key = "tab" ∨ key = "shift+tab" ∨ key = env.execKey ∨ key = "up" ∨ key = "down"
      ∨ key = env.saveKey ∨ key = env.delKey := by simp [hk]
  obtain ⟨tm, htm, hat⟩ := inputAt_eq m.cmdInputs m.index h0 h1
  refine ⟨tm, htm, ?_⟩
  simp only [Update, if_neg hq, if_neg ha, if_pos hin, if_neg hs, if_neg hd, execOrCycle,
    if_pos hk, hat]

/-- Witness of `execute_emits_focused`: focus at index 1 of 3, the text `pwd` is emitted. -/
theorem execute_emits_focused_witness :
    KeysDistinct (exampleEnv 10) ∧
    ∃ tm, (exampleModel 1).cmdInputs[(1 : Int).toNat]? = some tm ∧
      Update (exampleEnv 10) (exampleModel 1) exampleFile "enter" =
        (Step.quit (exampleModel 1) (some tm.Value), exampleFile) :=
  ⟨by decide,
    execute_emits_focused (exampleEnv 10) (exampleModel 1) exampleFile "enter" (by decide) rfl
      (by decide) (by decide)⟩

theorem update_del (env : Env) (m : model) (file : Storage) (key : String)
    (hcfg : KeysDistinct env) (hk : key = env.delKey) :
    Update env m file key =
      match readFromJSON file with
      | (none, file1) => (Step.exit, file1)
      | (some oldDatas, _) =>
        match m.removeModel m.index with
        | none => (Step.panic, writeToFile (jsonMarshal (removeElementOfData oldDatas m.index)))
        | some m1 =>
          (Step.next (cycle env
            (if m1.index > (m1.cmdInputs.length : Int) - 1 then { m1 with index := -2 }
              else { m1 with index := m1.index - 1 }) key),
            writeToFile (jsonMarshal (removeElementOfData oldDatas m.index))) := by
  obtain ⟨⟨-, e1, -⟩, ⟨s0, -⟩, ⟨d0, d1, -⟩, -⟩ := (keysDistinct_iff env).1 hcfg
  have hq : key ≠ env.quitKey := by rw [hk]; exact d1
  have ha : key ≠ env.addKey := by rw [hk]; exact d0
  have hs : key ≠ env.saveKey := by rw [hk]; exact Ne.symm s0
  have he : key ≠ env.execKey := by rw [hk]; exact Ne.symm e1
  have hin : key = "tab" ∨ key = "shift+tab" ∨ key = env.execKey ∨ key = "up" ∨ key = "down"
      ∨ key = env.saveKey ∨ key = env.delKey := by simp [hk]
  simp only [Update, if_neg hq, if_neg ha, if_pos hin, if_neg hs, if_pos hk]
  rcases readFromJSON file with ⟨_ | old, f1⟩
  · rfl
  · simp only
    cases m.removeModel m.index with
    | none => rfl
    | some m1 => simp only [execOrCycle, if_neg he]

theorem removeModel_in_range (m : model) (i : Int) (h0 : 0 ≤ i) (h1 : i < m.cmdInputs.length) :
    ∃ m1, m.removeModel i = some m1 ∧ m1.index = m.index ∧
      (m1.cmdInputs.length : Int) = (m.cmdInputs.length : Int) - 1 := by
  refine ⟨{ m with cmdInputs := m.cmdInputs.take i.toNat ++ m.cmdInputs.drop (i.toNat + 1) },
    by simp only [model.removeModel, if_neg (not_le.2 h1), if_neg (not_lt.2 h0)], rfl, ?_⟩
  simp only [List.length_append, List.length_take, List.length_drop]
  omega

/-- C10: with `n ≥ 2` in-memory entries, the focus index `i` in `[0, n-1]` and a readable
file, the delete key leaves `n-1` in-memory entries and the focus index `min i (n-2)`:
`i` when `i < n-1`, and `n-2` when the last entry was deleted; it is in `[0, n-2]`. -/
theorem delete_focus_clamped (env : Env) (m : model) (file : Storage) (key : String)
    (datas : List Data) (hcfg : KeysDistinct env) (hk : key = env.delKey)
    (hn : 2 ≤ m.cmdInputs.length) (h0 : 0 ≤ m.index) (h1 : m.index < m.cmdInputs.length)
    (hr : (readFromJSON file).1 = some datas) :
    ∃ m1, Update env m file key =
        (Step.next m1, writeToFile (jsonMarshal (removeElementOfData datas m.index))) ∧
      (m1.cmdInputs.length : Int) = (m.cmdInputs.length : Int) - 1 ∧
      m1.index = min m.index ((m.cmdInputs.length : Int) - 2) ∧
      (m.index < (m.cmdInputs.length : Int) - 1 → m1.index = m.index) ∧
      (m.index = (m.cmdInputs.length : Int) - 1 → m1.index = (m.cmdInputs.length : Int) - 2) ∧
      0 ≤ m1.index ∧ m1.index ≤ (m.cmdInputs.length : Int) - 2 := by
  obtain ⟨-, -, ⟨-, -, -, d3, d4, -⟩, -⟩ := (keysDistinct_iff env).1 hcfg
  have hnup : ¬ (key = "up" ∨ key = "shift+tab") := by
    rw [hk]; rintro (h | h)
    · exact d4 h
    · exact d3 h
  obtain ⟨m1, hrm, hidx, hlen⟩ := removeModel_in_range m m.index h0 h1
  rw [update_del env m file key hcfg hk]
  rcases hrf : readFromJSON file with ⟨r, f1⟩
  rw [hrf] at hr
  simp only at hr
  subst hr
  simp only [hrm]
  refine ⟨_, rfl, ?_, ?_⟩
  · rw [cycle_length]
    split_ifs <;> exact hlen
  · have key_idx : (cycle env
        (if m1.index > (m1.cmdInputs.length : Int) - 1 then { m1 with index := -2 }
          else { m1 with index := m1.index - 1 }) key).index =
        min m.index ((m.cmdInputs.length : Int) - 2) := by
      simp only [cycle, if_neg hnup]
      by_cases hc : m1.index > (m1.cmdInputs.length : Int) - 1
      · simp only [if_pos hc]
        rw [hidx] at hc
        split_ifs <;> omega
      · simp only [if_neg hc]
        rw [hidx] at hc ⊢
        split_ifs <;> omega
    rw [key_idx]
    refine ⟨rfl, ?_, ?_, ?_, ?_⟩ <;> omega

/-- Witness of `delete_focus_clamped`: deleting the last of the three example entries
moves the focus from 2 to 1. -/
theorem delete_focus_clamped_witness :
    KeysDistinct (exampleEnv 10) ∧
    ∃ m1, Update (exampleEnv 10) (exampleModel 2) exampleFile "ctrl+d" =
        (Step.next m1, writeToFile (jsonMarshal (removeElementOfData exampleDatas 2))) ∧
      (m1.cmdInputs.length : Int) = 2 ∧ m1.index = 1 :=
  ⟨by decide,
    let ⟨m1, h1, h2, h3, _⟩ := delete_focus_clamped (exampleEnv 10) (exampleModel 2) exampleFile
      "ctrl+d" exampleDatas (by decide) rfl (by decide) (by decide) (by decide) (by decide)
    ⟨m1, h1, h2.trans (by decide), h3.trans (by decide)⟩⟩

theorem positionsDense_append (datas : List Data) (c : GoString)
    (h : PositionsDense datas) : PositionsDense (datas ++ [⟨(datas.length : Int), c⟩]) := by
  intro k d hd
  by_cases hk : k < datas.length
  · rw [List.getElem?_append_left hk] at hd
    exact h k d hd
  · rw [List.getElem?_append_right (not_lt.1 hk)] at hd
    have hk0 : k - datas.length = 0 := by
      by_contra hne
      obtain ⟨j, hj⟩ : ∃ j, k - datas.length = j + 1 := ⟨k - datas.length - 1, by omega⟩
      rw [hj] at hd
      simp at hd
    rw [hk0] at hd
    simp only [List.getElem?_cons_zero, Option.some.injEq] at hd
    subst hd
    simp only
    have : k = datas.length := by omega
    rw [this]

/-- Where the reloaded list has as many entries as the in-memory list (and the file can be
read), the add key below the limit writes the reloaded list with exactly one entry
appended at the tail, whose command is empty and whose position is the length of the
reloaded list, so the written list has position == index throughout whenever the reloaded
list did; in memory exactly one entry, empty and without focus, is appended, the focus
index is kept, and the older inputs are passed the key message. -/
theorem add_appends_entry_in_sync (env : Env) (m : model) (file : Storage) (key : String)
    (datas : List Data) (hcfg : KeysDistinct env) (hk : key = env.addKey)
    (hlt : (m.cmdInputs.length : Int) < env.limitLineNumber)
    (hr : (readFromJSON file).1 = some datas)
    (hsync : datas.length = m.cmdInputs.length) :
    ∃ m1 tm, Update env m file key =
        (Step.next m1,
          writeToFile (jsonMarshal (datas ++ [⟨(datas.length : Int), []⟩]))) ∧
      m1.index = m.index ∧
      m1.cmdInputs = m.cmdInputs.map (TextInput.Update env.edit key) ++ [tm] ∧
      tm.Value = [] ∧ tm.focus = false ∧
      (PositionsDense datas → PositionsDense (datas ++ [⟨(datas.length : Int), []⟩])) := by
  refine ⟨updateInputs env key m.addModel, addedInput, ?_, rfl, ?_, by decide, by decide,
    positionsDense_append datas []⟩
  · rw [update_add env m file key hcfg hk, if_neg (not_le.2 hlt)]
    rcases hrf : readFromJSON file with ⟨r, f1⟩
    rw [hrf] at hr
    simp only at hr
    subst hr
    rw [hsync]
  · simp only [updateInputs, model.addModel, List.map_append, List.map_cons, List.map_nil]
    rfl

/-- An instance of `add_appends_entry_in_sync`: the add key in the example session. -/
theorem add_appends_entry_in_sync_example :
    KeysDistinct (exampleEnv 10) ∧
    ∃ m1 tm, Update (exampleEnv 10) (exampleModel 0) exampleFile "ctrl+a" =
        (Step.next m1, writeToFile (jsonMarshal (exampleDatas ++ [⟨3, []⟩]))) ∧
      m1.cmdInputs =
        (exampleModel 0).cmdInputs.map (TextInput.Update (exampleEnv 10).edit "ctrl+a") ++ [tm] ∧
      tm.Value = [] :=
  ⟨by decide,
    let ⟨m1, tm, h1, _, h3, h4, _⟩ := add_appends_entry_in_sync (exampleEnv 10) (exampleModel 0)
      exampleFile "ctrl+a" exampleDatas (by decide) rfl (by decide) (by decide) (by decide)
    ⟨m1, tm, h1, h3, h4⟩⟩

/-- C6 fails on the code: two instances of the program are started on the file that holds
the single entry `ls`, so each has one in-memory entry. The second instance handles the
add key twice and leaves three entries in the file. The add key in the first instance
then reloads these three entries and appends an entry with position 1, the number of its
in-memory entries (`tailNumber := len(m.cmdInputs)`), not 3, the length of the reloaded
list: the file holds the positions 0, 1, 2, 1. From the same state the delete key and
the save key write positions equal to the indexes. -/
theorem add_position_out_of_sync :
    initialModel (exampleEnv 10) singleFile = (some singleModel, singleFile) ∧
    (session (exampleEnv 10) singleFile ["ctrl+a", "ctrl+a"]).2 =
      some (jsonMarshal [⟨0, lit "ls"⟩, ⟨1, []⟩, ⟨2, []⟩]) ∧
    (readFromJSON (some (jsonMarshal [⟨0, lit "ls"⟩, ⟨1, []⟩, ⟨2, []⟩]))).1 =
      some [⟨0, lit "ls"⟩, ⟨1, []⟩, ⟨2, []⟩] ∧
    (Update (exampleEnv 10) singleModel
        (some (jsonMarshal [⟨0, lit "ls"⟩, ⟨1, []⟩, ⟨2, []⟩])) "ctrl+a").2 =
      some (jsonMarshal [⟨0, lit "ls"⟩, ⟨1, []⟩, ⟨2, []⟩, ⟨1, []⟩]) ∧
    (Update (exampleEnv 10) singleModel
        (some (jsonMarshal [⟨0, lit "ls"⟩, ⟨1, []⟩, ⟨2, []⟩])) "ctrl+a").2 ≠
      some (jsonMarshal [⟨0, lit "ls"⟩, ⟨1, []⟩, ⟨2, []⟩, ⟨3, []⟩]) ∧
    (Update (exampleEnv 10) singleModel
        (some (jsonMarshal [⟨0, lit "ls"⟩, ⟨1, []⟩, ⟨2, []⟩])) "ctrl+d").2 =
      some (jsonMarshal [⟨0, []⟩, ⟨1, []⟩]) ∧
    (Update (exampleEnv 10) singleModel
        (some (jsonMarshal [⟨0, lit "ls"⟩, ⟨1, []⟩, ⟨2, []⟩])) "ctrl+s").2 =
      some (jsonMarshal [⟨0, lit "ls"⟩]) := by
  decide

/-- C8: for the add key and the delete key the file written depends on the stored file,
the focus index and the number of in-memory entries only: two session states that agree
on these and differ in the inputs' contents leave the same file. -/
theorem add_delete_ignore_unsaved (env : Env) (m1 m2 : model) (file : Storage) (key : String)
    (hcfg : KeysDistinct env) (hk : key = env.addKey ∨ key = env.delKey)
    (hidx : m1.index = m2.index) (hlen : m1.cmdInputs.length = m2.cmdInputs.length) :
    (Update env m1 file key).2 = (Update env m2 file key).2 := by
  rcases hk with hk | hk
  · rw [update_add env m1 file key hcfg hk, update_add env m2 file key hcfg hk, hlen]
    split_ifs
    · rfl
    · rcases readFromJSON file with ⟨_ | datas, f1⟩ <;> rfl
  · rw [update_del env m1 file key hcfg hk, update_del env m2 file key hcfg hk, hidx]
    have hnone : m1.removeModel m2.index = none ↔ m2.removeModel m2.index = none := by
      simp only [model.removeModel, hlen]
      split_ifs <;> simp
    rcases readFromJSON file with ⟨_ | datas, f1⟩
    · rfl
    · simp only
      cases h1 : m1.removeModel m2.index with
      | none =>
        rw [hnone.1 h1]
      | some a =>
        cases h2 : m2.removeModel m2.index with
        | none => exact absurd (hnone.2 h2) (by rw [h1]; simp)
        | some b => rfl

/-- Witness of `add_delete_ignore_unsaved`: the delete key after the unsaved edit `x` of
the focused entry writes the same file as without the edit. -/
theorem add_delete_ignore_unsaved_witness :
    KeysDistinct (exampleEnv 10) ∧
    (Update (exampleEnv 10) (exampleModel 0) exampleFile "ctrl+d").2 =
      (Update (exampleEnv 10) (updateInputs (exampleEnv 10) "x" (exampleModel 0)) exampleFile
        "ctrl+d").2 ∧
    (updateInputs (exampleEnv 10) "x" (exampleModel 0)).cmdInputs ≠ (exampleModel 0).cmdInputs :=
  ⟨by decide,
    add_delete_ignore_unsaved (exampleEnv 10) (exampleModel 0)
      (updateInputs (exampleEnv 10) "x" (exampleModel 0)) exampleFile "ctrl+d" (by decide)
      (Or.inr rfl) rfl (by decide),
    by decide⟩

/-- C3 fails on the code: after the delete key has removed the only entry the focus
index is -1, and the execute key then panics in `m.cmdInputs[m.index]`, the delete key in
`m.cmdInputs[:i]` of `removeModel`; the same happens after the add key, which keeps the
index -1; with an empty stored list the execute key panics at index 0; and on a first
run (no file yet) the delete key followed by the execute key panics. -/
theorem focus_index_leaves_range :
    session (exampleEnv 10) (some (jsonMarshal [⟨0, lit "ls"⟩])) ["ctrl+d"] =
      (Step.next ⟨-1, []⟩, some (lit "null")) ∧
    (session (exampleEnv 10) (some (jsonMarshal [⟨0, lit "ls"⟩])) ["ctrl+d", "enter"]).1 =
      Step.panic ∧
    (session (exampleEnv 10) (some (jsonMarshal [⟨0, lit "ls"⟩])) ["ctrl+d", "ctrl+d"]).1 =
      Step.panic ∧
    (session (exampleEnv 10) (some (jsonMarshal [⟨0, lit "ls"⟩]))
      ["ctrl+d", "ctrl+a", "enter"]).1 = Step.panic ∧
    (session (exampleEnv 10) (some (jsonMarshal [⟨0, lit "ls"⟩]))
      ["ctrl+d", "ctrl+a", "ctrl+d"]).1 = Step.panic ∧
    (session (exampleEnv 10) (some (lit "[]")) ["enter"]).1 = Step.panic ∧
    (session (exampleEnv 10) none ["ctrl+d", "enter"]).1 = Step.panic := by
  decide

/-! ## UTF-8 -/

theorem char_isScalar (c : Char) : IsScalar c.toNat := by
  have h := c.valid
  simp only [UInt32.isValidChar, Nat.isValidChar] at h
  simp only [IsScalar, Char.toNat]
  omega

theorem decodeRune_encodeRune (n : Nat) (hn : IsScalar n) (rest : List Nat) :
    decodeRune (encodeRune n ++ rest) = (n, (encodeRune n).length) := by
  unfold IsScalar at hn
  unfold encodeRune
  by_cases h1 : n < 0x80
  · simp [h1, decodeRune]
  · by_cases h2 : n < 0x800
    · simp only [if_neg h1, if_pos h2]
      have hf : firstInfo (0xC0 + n / 64) = some (2, 0x80, 0xBF) := by
        unfold firstInfo
        rw [if_neg (by omega), if_pos (by omega)]
      simp only [decodeRune, List.cons_append, List.nil_append, hf, List.length_cons]
      rw [if_neg (by omega), if_neg (by omega), if_neg (by omega), if_pos (by omega)]
      simp only [List.length_nil, Prod.mk.injEq, and_true]
      omega
    · have h3 : ¬ (0x10FFFF < n ∨ (0xD800 ≤ n ∧ n ≤ 0xDFFF)) := by omega
      by_cases h4 : n < 0x10000
      · simp only [if_neg h1, if_neg h2, if_neg h3, if_pos h4]
        obtain ⟨lo, hi, hf, hlo, hhi⟩ : ∃ lo hi, firstInfo (0xE0 + n / 4096) = some (3, lo, hi) ∧
            lo ≤ 0x80 + n / 64 % 64 ∧ 0x80 + n / 64 % 64 ≤ hi := by
          unfold firstInfo
          by_cases e0 : n / 4096 = 0
          · refine ⟨0xA0, 0xBF, ?_, ?_, ?_⟩
            · rw [e0]; rfl
            · omega
            · omega
          · by_cases e1 : n / 4096 = 13
            · refine ⟨0x80, 0x9F, ?_, ?_, ?_⟩
              · rw [e1]; rfl
              · omega
              · omega
            · by_cases e2 : n / 4096 < 13
              · refine ⟨0x80, 0xBF, ?_, ?_, ?_⟩
                · rw [if_neg (by omega), if_neg (by omega), if_neg (by omega), if_pos (by omega)]
                · omega
                · omega
              · refine ⟨0x80, 0xBF, ?_, ?_, ?_⟩
                · rw [if_neg (by omega), if_neg (by omega), if_neg (by omega), if_neg (by omega),
                    if_neg (by omega), if_pos (by omega)]
                · omega
                · omega
        simp only [decodeRune, List.cons_append, List.nil_append, hf, List.length_cons, isCont]
        rw [if_neg (by omega), if_neg (by omega), if_neg (by omega), if_neg (by omega)]
        have hc : (!(decide (0x80 ≤ 0x80 + n % 64) && decide (0x80 + n % 64 ≤ 0xBF))) = false := by
          simp; omega
        rw [hc]
        simp only [Bool.false_eq_true, if_false]
        rw [if_pos (by omega)]
        simp only [List.length_nil, Prod.mk.injEq, and_true]
        omega
      · simp only [if_neg h1, if_neg h2, if_neg h3, if_neg h4]
        obtain ⟨lo, hi, hf, hlo, hhi⟩ : ∃ lo hi,
            firstInfo (0xF0 + n / 262144) = some (4, lo, hi) ∧
            lo ≤ 0x80 + n / 4096 % 64 ∧ 0x80 + n / 4096 % 64 ≤ hi := by
          unfold firstInfo
          by_cases e0 : n / 262144 = 0
          · refine ⟨0x90, 0xBF, ?_, ?_, ?_⟩
            · rw [e0]; rfl
            · omega
            · omega
          · by_cases e1 : n / 262144 = 4
            · refine ⟨0x80, 0x8F, ?_, ?_, ?_⟩
              · rw [e1]; rfl
              · omega
              · omega
            · refine ⟨0x80, 0xBF, ?_, ?_, ?_⟩
              · rw [if_neg (by omega), if_neg (by omega), if_neg (by omega), if_neg (by omega),
                  if_neg (by omega), if_neg (by omega), if_neg (by omega), if_pos (by omega)]
              · omega
              · omega
        simp only [decodeRune, List.cons_append, List.nil_append, hf, List.length_cons, isCont]
        rw [if_neg (by omega), if_neg (by omega), if_neg (by omega), if_neg (by omega)]
        have hc2 : (!(decide (0x80 ≤ 0x80 + n / 64 % 64) && decide (0x80 + n / 64 % 64 ≤ 0xBF)))
            = false := by
          simp; omega
        have hc3 : (!(decide (0x80 ≤ 0x80 + n % 64) && decide (0x80 + n % 64 ≤ 0xBF))) = false := by
          simp; omega
        rw [hc2]
        simp only [Bool.false_eq_true, if_false]
        rw [if_neg (by omega)]
        simp only [hc3, Bool.false_eq_true, if_false, List.length_nil, Prod.mk.injEq, and_true]
        omega

theorem encodeRune_head (n : Nat) (hn : IsScalar n) (h : 0x80 ≤ n) :
    ∃ b t, encodeRune n = b :: t ∧ 0xC2 ≤ b ∧ 2 ≤ (encodeRune n).length := by
  unfold IsScalar at hn
  unfold encodeRune
  rw [if_neg (by omega)]
  by_cases h2 : n < 0x800
  · rw [if_pos h2]
    exact ⟨_, _, rfl, by omega, by simp⟩
  · have h3 : ¬ (0x10FFFF < n ∨ (0xD800 ≤ n ∧ n ≤ 0xDFFF)) := by omega
    rw [if_neg h2, if_neg h3]
    by_cases h4 : n < 0x10000
    · rw [if_pos h4]
      exact ⟨_, _, rfl, by omega, by simp⟩
    · rw [if_neg h4]
      exact ⟨_, _, rfl, by omega, by simp⟩

theorem encodeRune_ne_nil (n : Nat) : 1 ≤ (encodeRune n).length := by
  unfold encodeRune
  split_ifs <;> simp

theorem quoteBody_step (n : Nat) (hn : IsScalar n) (fuel : Nat) (tail : List Nat) :
    quoteBody (fuel + 1) (encodeRune n ++ tail) = quoteChar n ++ quoteBody fuel tail := by
  by_cases h1 : n < 0x80
  · have he : encodeRune n = [n] := by unfold encodeRune; rw [if_pos h1]
    rw [he]
    simp only [List.singleton_append, quoteBody, if_pos h1, quoteChar]
  · obtain ⟨b, t, hbt, hb, hlen⟩ := encodeRune_head n hn (by omega)
    have hs : encodeRune n ++ tail = b :: (t ++ tail) := by rw [hbt]; rfl
    have hdec := decodeRune_encodeRune n hn tail
    rw [hs] at hdec ⊢
    simp only [quoteBody, if_neg (show ¬ b < 0x80 by omega), hdec]
    have hne : ¬ (n = RuneError ∧ (encodeRune n).length = 1) := by omega
    rw [if_neg hne]
    have htake : List.take (encodeRune n).length (b :: (t ++ tail)) = encodeRune n := by
      rw [← hs]; simp
    have hdrop : List.drop (encodeRune n).length (b :: (t ++ tail)) = tail := by
      rw [← hs]; simp
    rw [htake, hdrop]
    simp only [quoteChar, if_neg h1]
    split_ifs <;> simp

theorem hexVal_hexDigit (k : Nat) (hk : k < 16) : hexVal (hexDigit k) = some k := by
  interval_cases k <;> rfl

theorem parseStringBody_ascii (n : Nat) (h : n < 0x80) (fuel : Nat) (tail : List Nat) :
    parseStringBody (fuel + 1) (quoteChar n ++ tail) =
      (parseStringBody fuel tail).map (fun p => (encodeRune n ++ p.1, p.2)) := by
  have he : encodeRune n = [n] := by unfold encodeRune; rw [if_pos h]
  rw [he]
  simp only [quoteChar, if_pos h]
  by_cases hs : htmlSafe n = true
  · rw [if_pos hs]
    simp only [htmlSafe, Bool.and_eq_true, decide_eq_true_eq, bne_iff_ne, ne_eq] at hs
    obtain ⟨⟨⟨⟨⟨⟨g1, g2⟩, g3⟩, g4⟩, g5⟩, g6⟩, g7⟩ := hs
    simp only [List.singleton_append, parseStringBody, if_neg g3, if_neg g7,
      if_neg (show ¬ n < 32 by omega), if_pos h]
  · rw [if_neg hs]
    have hcases : n < 32 ∨ n = 34 ∨ n = 38 ∨ n = 60 ∨ n = 62 ∨ n = 92 := by
      by_contra hc
      apply hs
      simp only [htmlSafe, Bool.and_eq_true, decide_eq_true_eq, bne_iff_ne, ne_eq]
      omega
    rcases hcases with hlt | h34 | h38 | h60 | h62 | h92
    · interval_cases n <;>
        simp [escapeByte, parseStringBody, getu4, hexVal, hexDigit, encodeRune]
    · subst h34; simp [escapeByte, parseStringBody]
    · subst h38; simp [escapeByte, parseStringBody, getu4, hexVal, hexDigit, encodeRune]
    · subst h60; simp [escapeByte, parseStringBody, getu4, hexVal, hexDigit, encodeRune]
    · subst h62; simp [escapeByte, parseStringBody, getu4, hexVal, hexDigit, encodeRune]
    · subst h92; simp [escapeByte, parseStringBody]

theorem parseStringBody_step (n : Nat) (hn : IsScalar n) (fuel : Nat) (tail : List Nat) :
    parseStringBody (fuel + 1) (quoteChar n ++ tail) =
      (parseStringBody fuel tail).map (fun p => (encodeRune n ++ p.1, p.2)) := by
  by_cases h1 : n < 0x80
  · exact parseStringBody_ascii n h1 fuel tail
  · by_cases h2 : n = 0x2028 ∨ n = 0x2029
    · rcases h2 with h2 | h2 <;> subst h2 <;>
        simp [quoteChar, lit, parseStringBody, getu4, hexVal, hexDigit, encodeRune]
    · obtain ⟨b, t, hbt, hb, hlen⟩ := encodeRune_head n hn (by omega)
      have hq : quoteChar n = encodeRune n := by
        simp only [quoteChar, if_neg h1, if_neg h2]
      have hs : encodeRune n ++ tail = b :: (t ++ tail) := by rw [hbt]; rfl
      have hdec := decodeRune_encodeRune n hn tail
      rw [hq, hs]
      rw [hs] at hdec
      simp only [parseStringBody, if_neg (show ¬ b = 34 by omega),
        if_neg (show ¬ b = 92 by omega), if_neg (show ¬ b < 32 by omega),
        if_neg (show ¬ b < 0x80 by omega), hdec]
      have hdrop : List.drop (encodeRune n).length (b :: (t ++ tail)) = tail := by
        rw [← hs]; simp
      rw [hdrop]

/-- The escaped form of a text. -/
theorem quoteBody_utf8 (cs : List Char) (fuel : Nat) (hf : cs.length ≤ fuel) :
    quoteBody fuel (utf8 cs) = cs.flatMap (fun c => quoteChar c.toNat) := by
  induction cs generalizing fuel with
  | nil => cases fuel <;> simp [utf8, quoteBody]
  | cons c cs ih =>
    obtain ⟨f, rfl⟩ : ∃ f, fuel = f + 1 := ⟨fuel - 1, by simp at hf; omega⟩
    have hu : utf8 (c :: cs) = encodeRune c.toNat ++ utf8 cs := by simp [utf8]
    rw [hu, quoteBody_step _ (char_isScalar c), ih f (by simp at hf; omega)]
    simp

theorem utf8_length (cs : List Char) : cs.length ≤ (utf8 cs).length := by
  induction cs with
  | nil => simp
  | cons c cs ih =>
    have hu : utf8 (c :: cs) = encodeRune c.toNat ++ utf8 cs := by simp [utf8]
    rw [hu, List.length_append, List.length_cons]
    have := encodeRune_ne_nil c.toNat
    omega

theorem parseStringBody_quoted (cs : List Char) (fuel : Nat) (rest : List Nat)
    (hf : cs.length + 1 ≤ fuel) :
    parseStringBody fuel (cs.flatMap (fun c => quoteChar c.toNat) ++ 34 :: rest) =
      some (utf8 cs, rest) := by
  induction cs generalizing fuel with
  | nil =>
    obtain ⟨f, rfl⟩ : ∃ f, fuel = f + 1 := ⟨fuel - 1, by simp at hf; omega⟩
    simp [parseStringBody, utf8]
  | cons c cs ih =>
    obtain ⟨f, rfl⟩ : ∃ f, fuel = f + 1 := ⟨fuel - 1, by simp at hf; omega⟩
    have hu : utf8 (c :: cs) = encodeRune c.toNat ++ utf8 cs := by simp [utf8]
    simp only [List.flatMap_cons, List.append_assoc]
    rw [parseStringBody_step _ (char_isScalar c), ih f (by simp at hf; omega), hu]
    rfl

theorem quoteChar_ne_nil (n : Nat) : 1 ≤ (quoteChar n).length := by
  unfold quoteChar escapeByte
  split_ifs
  all_goals first
    | exact encodeRune_ne_nil n
    | simp [lit]

theorem quoted_length (cs : List Char) :
    cs.length ≤ (cs.flatMap (fun c => quoteChar c.toNat)).length := by
  induction cs with
  | nil => simp
  | cons c cs ih =>
    simp only [List.flatMap_cons, List.length_append, List.length_cons]
    have := quoteChar_ne_nil c.toNat
    omega

/-- The string literal written by `appendString` for a well-formed string is read back
by the decoder as that string. -/
theorem parseString_appendString (s : GoString) (hs : ValidUTF8 s) (rest : List Nat) :
    ∃ body, appendString s ++ rest = 34 :: body ∧ parseString body = some (s, rest) := by
  obtain ⟨cs, rfl⟩ := hs
  refine ⟨cs.flatMap (fun c => quoteChar c.toNat) ++ 34 :: rest, ?_, ?_⟩
  · simp [appendString, quoteBody_utf8 cs _ (utf8_length cs)]
  · unfold parseString
    apply parseStringBody_quoted
    have := quoted_length cs
    simp only [List.length_append, List.length_cons]
    omega

theorem isScalar_char (n : Nat) (h : IsScalar n) : ∃ c : Char, c.toNat = n := by
  have hv : n.isValidChar := by
    unfold IsScalar at h
    simp only [Nat.isValidChar]; omega
  exact ⟨Char.ofNatAux n hv, rfl⟩

theorem encodeRune_two (s0 s1 : Nat) (h0 : 0xC2 ≤ s0) (h0b : s0 < 0xE0)
    (h1 : 0x80 ≤ s1) (h1b : s1 ≤ 0xBF) :
    IsScalar (s0 % 32 * 64 + s1 % 64) ∧ encodeRune (s0 % 32 * 64 + s1 % 64) = [s0, s1] := by
  refine ⟨by unfold IsScalar; omega, ?_⟩
  unfold encodeRune
  rw [if_neg (by omega), if_pos (by omega)]
  congr 1
  · omega
  · congr 1; omega

theorem encodeRune_three (s0 s1 s2 lo hi : Nat) (hf : firstInfo s0 = some (3, lo, hi))
    (h1 : lo ≤ s1) (h1b : s1 ≤ hi) (h2 : 0x80 ≤ s2) (h2b : s2 ≤ 0xBF) :
    IsScalar (s0 % 16 * 4096 + s1 % 64 * 64 + s2 % 64) ∧
      encodeRune (s0 % 16 * 4096 + s1 % 64 * 64 + s2 % 64) = [s0, s1, s2] := by
  have hr : 0xE0 ≤ s0 ∧ s0 < 0xF0 ∧ 0x80 ≤ s1 ∧ s1 ≤ 0xBF ∧ (s0 = 0xE0 → 0xA0 ≤ s1) ∧
      (s0 = 0xED → s1 ≤ 0x9F) := by
    unfold firstInfo at hf
    split_ifs at hf
    all_goals (simp at hf <;> omega)
  obtain ⟨a1, a2, a3, a4, a5, a6⟩ := hr
  have key : ¬ (s0 % 16 * 4096 + s1 % 64 * 64 + s2 % 64 < 0x800) := by
    by_cases e : s0 = 0xE0
    · have := a5 e; omega
    · omega
  have key2 : ¬ (0x10FFFF < s0 % 16 * 4096 + s1 % 64 * 64 + s2 % 64 ∨
      (0xD800 ≤ s0 % 16 * 4096 + s1 % 64 * 64 + s2 % 64 ∧
        s0 % 16 * 4096 + s1 % 64 * 64 + s2 % 64 ≤ 0xDFFF)) := by
    by_cases e : s0 = 0xED
    · have := a6 e; omega
    · omega
  refine ⟨by unfold IsScalar; omega, ?_⟩
  unfold encodeRune
  rw [if_neg (by omega), if_neg key, if_neg key2, if_pos (by omega)]
  congr 1
  · omega
  · congr 1
    · omega
    · congr 1; omega

theorem encodeRune_four (s0 s1 s2 s3 lo hi : Nat) (hf : firstInfo s0 = some (4, lo, hi))
    (h1 : lo ≤ s1) (h1b : s1 ≤ hi) (h2 : 0x80 ≤ s2) (h2b : s2 ≤ 0xBF)
    (h3 : 0x80 ≤ s3) (h3b : s3 ≤ 0xBF) :
    IsScalar (s0 % 8 * 262144 + s1 % 64 * 4096 + s2 % 64 * 64 + s3 % 64) ∧
      encodeRune (s0 % 8 * 262144 + s1 % 64 * 4096 + s2 % 64 * 64 + s3 % 64) =
        [s0, s1, s2, s3] := by
  have hr : 0xF0 ≤ s0 ∧ s0 ≤ 0xF4 ∧ 0x80 ≤ s1 ∧ s1 ≤ 0xBF ∧ (s0 = 0xF0 → 0x90 ≤ s1) ∧
      (s0 = 0xF4 → s1 ≤ 0x8F) := by
    unfold firstInfo at hf
    split_ifs at hf
    all_goals (simp at hf <;> omega)
  obtain ⟨a1, a2, a3, a4, a5, a6⟩ := hr
  have key : ¬ (s0 % 8 * 262144 + s1 % 64 * 4096 + s2 % 64 * 64 + s3 % 64 < 0x10000) := by
    by_cases e : s0 = 0xF0
    · have := a5 e; omega
    · omega
  have key2 : s0 % 8 * 262144 + s1 % 64 * 4096 + s2 % 64 * 64 + s3 % 64 ≤ 0x10FFFF := by
    by_cases e : s0 = 0xF4
    · have := a6 e; omega
    · omega
  refine ⟨by unfold IsScalar; omega, ?_⟩
  unfold encodeRune
  rw [if_neg (by omega), if_neg (by omega), if_neg (by omega), if_neg key]
  congr 1
  · omega
  · congr 1
    · omega
    · congr 1
      · omega
      · congr 1; omega

theorem firstInfo_size (s0 sz lo hi : Nat) (hf : firstInfo s0 = some (sz, lo, hi)) :
    (sz = 2 ∧ 0xC2 ≤ s0 ∧ s0 < 0xE0 ∧ lo = 0x80 ∧ hi = 0xBF) ∨ sz = 3 ∨ sz = 4 := by
  unfold firstInfo at hf
  split_ifs at hf
  all_goals (simp at hf; omega)

theorem decodeRune_inv (s0 : Nat) (t : List Nat) :
    decodeRune (s0 :: t) = (RuneError, 1) ∨
    (∃ n k, decodeRune (s0 :: t) = (n, k) ∧ IsScalar n ∧
      s0 :: t = encodeRune n ++ (s0 :: t).drop k) := by
  by_cases ha : s0 < 0x80
  · right
    refine ⟨s0, 1, by simp [decodeRune, ha], by unfold IsScalar; omega, ?_⟩
    simp [encodeRune, ha]
  · rcases hf : firstInfo s0 with _ | ⟨sz, lo, hi⟩
    · left; simp [decodeRune, ha, hf]
    · by_cases hlen : (s0 :: t).length < sz
      · left; simp only [decodeRune, if_neg ha, hf, if_pos hlen]
      · cases t with
        | nil => left; simp only [decodeRune, if_neg ha, hf, if_neg hlen]
        | cons s1 t1 =>
          by_cases hr1 : s1 < lo ∨ hi < s1
          · left; simp only [decodeRune, if_neg ha, hf, if_neg hlen, if_pos hr1]
          · by_cases h2 : sz ≤ 2
            · right
              rcases firstInfo_size s0 sz lo hi hf with ⟨b0, b1, b2, b3, b4⟩ | b | b
              · obtain ⟨hsc, henc⟩ := encodeRune_two s0 s1 b1 b2 (by omega) (by omega)
                refine ⟨_, 2, ?_, hsc, by rw [henc]; rfl⟩
                simp only [decodeRune, if_neg ha, hf, if_neg hlen, if_neg hr1, if_pos h2]
              · omega
              · omega
            · cases t1 with
              | nil =>
                left; simp only [decodeRune, if_neg ha, hf, if_neg hlen, if_neg hr1, if_neg h2]
              | cons s2 t2 =>
                by_cases hc2 : isCont s2 = true
                · have hc2b := hc2
                  simp only [isCont, Bool.and_eq_true, decide_eq_true_eq] at hc2b
                  by_cases h3 : sz ≤ 3
                  · right
                    have hsz3 : sz = 3 := by
                      rcases firstInfo_size s0 sz lo hi hf with ⟨b0, -⟩ | b | b <;> omega
                    subst hsz3
                    obtain ⟨hsc, henc⟩ := encodeRune_three s0 s1 s2 lo hi hf (by omega)
                      (by omega) hc2b.1 hc2b.2
                    refine ⟨_, 3, ?_, hsc, by rw [henc]; rfl⟩
                    simp only [decodeRune, if_neg ha, hf, if_neg hlen, if_neg hr1, if_neg h2,
                      hc2, Bool.not_true, Bool.false_eq_true, if_false, if_pos h3]
                  · have hsz4 : sz = 4 := by
                      rcases firstInfo_size s0 sz lo hi hf with ⟨b0, -⟩ | b | b <;> omega
                    subst hsz4
                    cases t2 with
                    | nil =>
                      left
                      simp only [decodeRune, if_neg ha, hf, if_neg hlen, if_neg hr1, if_neg h2,
                        hc2, Bool.not_true, Bool.false_eq_true, if_false, if_neg h3]
                    | cons s3 t3 =>
                      by_cases hc3 : isCont s3 = true
                      · right
                        have hc3b := hc3
                        simp only [isCont, Bool.and_eq_true, decide_eq_true_eq] at hc3b
                        obtain ⟨hsc, henc⟩ := encodeRune_four s0 s1 s2 s3 lo hi hf (by omega)
                          (by omega) hc2b.1 hc2b.2 hc3b.1 hc3b.2
                        refine ⟨_, 4, ?_, hsc, by rw [henc]; rfl⟩
                        simp only [decodeRune, if_neg ha, hf, if_neg hlen, if_neg hr1,
                          if_neg h2, hc2, Bool.not_true, Bool.false_eq_true, if_false,
                          if_neg h3, hc3]
                      · left
                        have hc3f : isCont s3 = false := by
                          cases hq : isCont s3
                          · rfl
                          · exact absurd hq hc3
                        simp only [decodeRune, if_neg ha, hf, if_neg hlen, if_neg hr1,
                          if_neg h2, hc2, Bool.not_true, Bool.false_eq_true, if_false,
                          if_neg h3, hc3f, Bool.not_false, if_true]
                · left
                  have hc2f : isCont s2 = false := by
                    cases hq : isCont s2
                    · rfl
                    · exact absurd hq hc2
                  simp only [decodeRune, if_neg ha, hf, if_neg hlen, if_neg hr1, if_neg h2,
                    hc2f, Bool.not_false, if_true]

theorem decodeRune_valid (s0 : Nat) (t : List Nat)
    (h : ¬ ((decodeRune (s0 :: t)).1 = RuneError ∧ (decodeRune (s0 :: t)).2 = 1)) :
    ∃ n, IsScalar n ∧ s0 :: t = encodeRune n ++ (s0 :: t).drop (decodeRune (s0 :: t)).2 := by
  rcases decodeRune_inv s0 t with hbad | ⟨n, k, hd, hn, heq⟩
  · rw [hbad] at h
    exact absurd ⟨rfl, rfl⟩ h
  · rw [hd]
    exact ⟨n, hn, heq⟩

theorem validStringAux_valid (fuel : Nat) (s : List Nat) (h : validStringAux fuel s = true) :
    ValidUTF8 s := by
  induction fuel generalizing s with
  | zero =>
    cases s with
    | nil => exact ⟨[], rfl⟩
    | cons a t => simp [validStringAux] at h
  | succ fuel ih =>
    cases s with
    | nil => exact ⟨[], rfl⟩
    | cons s0 t =>
      simp only [validStringAux] at h
      by_cases hbad : (decodeRune (s0 :: t)).1 = RuneError ∧ (decodeRune (s0 :: t)).2 = 1
      · simp [hbad] at h
      · rw [if_neg hbad] at h
        obtain ⟨cs, hcs⟩ := ih _ h
        obtain ⟨n, hn, heq⟩ := decodeRune_valid s0 t hbad
        obtain ⟨c, hc⟩ := isScalar_char n hn
        refine ⟨c :: cs, ?_⟩
        rw [heq, hcs, ← hc]
        simp [utf8]

theorem validString_valid (s : GoString) (h : validString s = true) : ValidUTF8 s :=
  validStringAux_valid s.length s h

/-! ## Numbers -/

theorem natDigits_spec (fuel n : Nat) (acc : List Nat) (h : n < fuel) :
    ∃ d ds, natDigits fuel n acc = d :: (ds ++ acc) ∧ isDigit d = true ∧
      (∀ b ∈ ds, isDigit b = true) ∧ (d = 48 → n = 0 ∧ ds = []) := by
  induction fuel generalizing n acc with
  | zero => omega
  | succ fuel ih =>
    unfold natDigits
    by_cases h10 : n < 10
    · rw [if_pos h10]
      refine ⟨48 + n, [], rfl, ?_, by simp, fun h0 => ⟨by omega, rfl⟩⟩
      simp [isDigit]; omega
    · rw [if_neg h10]
      obtain ⟨d, ds, heq, hd, hds, h48⟩ := ih (n / 10) ((48 + n % 10) :: acc) (by omega)
      have hne : d ≠ 48 := by
        intro hd48
        have := (h48 hd48).1
        omega
      refine ⟨d, ds ++ [48 + n % 10], ?_, hd, ?_, fun hc => absurd hc hne⟩
      · rw [heq]; simp
      · intro b hb
        rcases List.mem_append.1 hb with hb | hb
        · exact hds b hb
        · simp only [List.mem_singleton] at hb
          subst hb
          simp [isDigit]; omega

theorem parseUint_natDigits (fuel n : Nat) (acc : List Nat) (h : n < fuel) :
    parseUint (natDigits fuel n acc) 0 = parseUint acc n := by
  induction fuel generalizing n acc with
  | zero => omega
  | succ fuel ih =>
    unfold natDigits
    by_cases h10 : n < 10
    · rw [if_pos h10]
      have hd : isDigit (48 + n) = true := by simp [isDigit]; omega
      simp only [parseUint, hd, if_true]
      congr 1
      omega
    · rw [if_neg h10, ih (n / 10) _ (by omega)]
      have hd : isDigit (48 + n % 10) = true := by simp [isDigit]; omega
      simp only [parseUint, hd, if_true]
      congr 1
      omega

theorem spanDigits_append (ds : List Nat) (c : Nat) (rest : List Nat)
    (hds : ∀ b ∈ ds, isDigit b = true) (hc : isDigit c = false) :
    spanDigits (ds ++ c :: rest) = (ds, c :: rest) := by
  induction ds with
  | nil => simp [spanDigits, hc]
  | cons d ds ih =>
    have hd : isDigit d = true := hds d (List.mem_cons_self _ _)
    have ih2 := ih (fun b hb => hds b (List.mem_cons_of_mem _ hb))
    simp only [List.cons_append, spanDigits, hd, if_true]
    rw [show ds.append (c :: rest) = ds ++ c :: rest from rfl, ih2]

theorem scanUnsigned (fuel n : Nat) (h : n < fuel) (rest : List Nat) :
    (match scanIntPart (natDigits fuel n [] ++ 44 :: rest) with
      | none => none
      | some (ip, r) => (scanFracExp r).map (fun p => (ip ++ p.1, p.2))) =
      some (natDigits fuel n [], 44 :: rest) := by
  obtain ⟨d, ds, heq, hd, hds, h48⟩ := natDigits_spec fuel n [] h
  rw [heq]
  simp only [List.append_nil, List.cons_append]
  have hip : scanIntPart (d :: (ds ++ 44 :: rest)) = some (d :: ds, 44 :: rest) := by
    by_cases hz : d = 48
    · obtain ⟨-, hnil⟩ := h48 hz
      subst hnil
      simp [scanIntPart, hz]
    · simp only [scanIntPart, if_neg hz, hd, if_true]
      have := spanDigits_append (d :: ds) 44 rest
        (by
          intro b hb
          rcases List.mem_cons.1 hb with hb | hb
          · rw [hb]; exact hd
          · exact hds b hb)
        (by decide)
      rw [List.cons_append] at this
      rw [this]
  rw [hip]
  simp [scanFracExp, scanExp]

theorem natDigits_head (fuel n : Nat) (h : n < fuel) :
    ∃ d t, natDigits fuel n [] = d :: t ∧ isDigit d = true := by
  obtain ⟨d, ds, heq, hd, -, -⟩ := natDigits_spec fuel n [] h
  exact ⟨d, ds ++ [], heq, hd⟩

theorem scanNumber_formatInt (i : Int) (rest : List Nat) :
    scanNumber (formatInt i ++ 44 :: rest) = some (formatInt i, 44 :: rest) := by
  unfold formatInt
  by_cases hneg : i < 0
  · rw [if_pos hneg]
    have h := scanUnsigned (i.natAbs + 1) i.natAbs (by omega) rest
    simp only [List.cons_append, scanNumber, if_true]
    revert h
    cases scanIntPart (natDigits (i.natAbs + 1) i.natAbs [] ++ 44 :: rest) with
    | none => intro h; simp at h
    | some p =>
      obtain ⟨ip, r⟩ := p
      intro h
      have h2 : (scanFracExp r).map (fun p => (ip ++ p.1, p.2)) =
          some (natDigits (i.natAbs + 1) i.natAbs [], 44 :: rest) := h
      show (scanFracExp r).map (fun p => (45 :: (ip ++ p.1), p.2)) = _
      cases hq : scanFracExp r with
      | none => rw [hq] at h2; simp at h2
      | some q =>
        rw [hq] at h2
        simp only [Option.map_some', Option.some.injEq, Prod.mk.injEq] at h2 ⊢
        exact ⟨by rw [← h2.1], h2.2⟩
  · rw [if_neg hneg]
    obtain ⟨d, t, heq, hd⟩ := natDigits_head (i.natAbs + 1) i.natAbs (by omega)
    have h := scanUnsigned (i.natAbs + 1) i.natAbs (by omega) rest
    have hd45 : d ≠ 45 := by
      intro hc; subst hc; simp [isDigit] at hd
    rw [heq] at h ⊢
    simp only [List.cons_append, scanNumber, if_neg hd45]
    simp only [List.cons_append] at h
    exact h

theorem parseInt_formatInt (i : Int) (hi : IsInt64 i) : parseInt (formatInt i) = some i := by
  unfold IsInt64 at hi
  unfold formatInt
  obtain ⟨d, t, heq, hd⟩ := natDigits_head (i.natAbs + 1) i.natAbs (by omega)
  have hp := parseUint_natDigits (i.natAbs + 1) i.natAbs [] (by omega)
  simp only [parseUint] at hp
  by_cases hneg : i < 0
  · rw [if_pos hneg]
    simp only [parseInt, if_true]
    rw [heq] at hp ⊢
    simp only [hp]
    rw [if_pos (by omega)]
    congr 1
    omega
  · rw [if_neg hneg]
    have hd45 : d ≠ 45 := by
      intro hc; subst hc; simp [isDigit] at hd
    have hd43 : d ≠ 43 := by
      intro hc; subst hc; simp [isDigit] at hd
    rw [heq] at hp ⊢
    simp only [parseInt, if_neg hd45, if_neg hd43, hp]
    rw [if_pos (by omega)]
    congr 1
    omega

theorem formatInt_head (i : Int) :
    ∃ c t, formatInt i = c :: t ∧ (c = 45 ∨ isDigit c = true) := by
  unfold formatInt
  by_cases hneg : i < 0
  · rw [if_pos hneg]
    exact ⟨45, _, rfl, Or.inl rfl⟩
  · rw [if_neg hneg]
    obtain ⟨d, t, heq, hd⟩ := natDigits_head (i.natAbs + 1) i.natAbs (by omega)
    exact ⟨d, t, heq, Or.inr hd⟩

/-! ## One entry -/

theorem marshalData_append (d : Data) (rest : List Nat) :
    marshalData d ++ rest =
      123 :: 34 :: 105 :: 100 :: 34 :: 58 :: (formatInt d.ID ++
        44 :: 34 :: 99 :: 109 :: 100 :: 34 :: 58 :: (appendString d.Cmd ++ 125 :: rest)) := by
  have h1 : lit "\x7b\"id\":" = [123, 34, 105, 100, 34, 58] := by decide
  have h2 : lit ",\"cmd\":" = [44, 34, 99, 109, 100, 34, 58] := by decide
  have h3 : lit "\x7d" = [125] := by decide
  simp only [marshalData, h1, h2, h3, List.append_assoc, List.cons_append, List.nil_append]

theorem skipSpace_formatInt (i : Int) (rest : List Nat) :
    skipSpace (formatInt i ++ rest) = formatInt i ++ rest := by
  obtain ⟨c, t, heq, hc⟩ := formatInt_head i
  rw [heq]
  have hsp : isSpace c = false := by
    rcases hc with hc | hc
    · subst hc; decide
    · simp only [isDigit, Bool.and_eq_true, decide_eq_true_eq] at hc
      simp only [isSpace, Bool.or_eq_false_iff, decide_eq_false_iff_not]
      omega
  simp only [List.cons_append, skipSpace, hsp, Bool.false_eq_true, if_false]
  rfl

theorem storeField_id (d : Data) (i : Int) (hi : IsInt64 i) (rest : List Nat) :
    storeField [105, 100] d (formatInt i ++ 44 :: rest) =
      some ({ d with ID := i }, 44 :: rest) := by
  have hscan := scanNumber_formatInt i rest
  have hparse := parseInt_formatInt i hi
  obtain ⟨c, t, heq, hc⟩ := formatInt_head i
  have hkey : List.map foldByte [105, 100] = lit "ID" := by decide
  have hn : c ≠ 110 := by
    rcases hc with hc | hc
    · omega
    · simp only [isDigit, Bool.and_eq_true, decide_eq_true_eq] at hc
      omega
  rw [heq] at hscan
  rw [heq]
  simp only [storeField, hkey, if_true, List.cons_append, if_neg hn, if_pos hc]
  simp only [List.cons_append] at hscan
  rw [hscan]
  simp only [← heq, hparse, Option.map_some']

theorem storeField_cmd (d : Data) (s : GoString) (hs : ValidUTF8 s) (rest : List Nat) :
    storeField [99, 109, 100] d (appendString s ++ rest) = some ({ d with Cmd := s }, rest) := by
  obtain ⟨body, hb, hp⟩ := parseString_appendString s hs rest
  have hkey1 : ¬ List.map foldByte [99, 109, 100] = lit "ID" := by decide
  have hkey2 : List.map foldByte [99, 109, 100] = lit "CMD" := by decide
  have hkey3 : ¬ lit "CMD" = lit "ID" := by decide
  rw [hb]
  simp only [storeField, hkey2, if_neg hkey3, if_true, if_neg (show ¬ (34 = 110) by decide), hp,
    Option.map_some']

theorem skipSpace_appendString (s : GoString) (rest : List Nat) :
    skipSpace (appendString s ++ rest) = appendString s ++ rest := by
  simp [appendString, skipSpace, isSpace]

theorem parseMembers_marshalData (fuel : Nat) (d : Data) (hi : IsInt64 d.ID)
    (hs : ValidUTF8 d.Cmd) (rest : List Nat) :
    parseMembers (fuel + 2) ⟨0, []⟩
      (34 :: 105 :: 100 :: 34 :: 58 :: (formatInt d.ID ++
        44 :: 34 :: 99 :: 109 :: 100 :: 34 :: 58 :: (appendString d.Cmd ++ 125 :: rest))) =
      some (d, rest) := by
  have hk1 : ∀ r, parseString (105 :: 100 :: 34 :: r) = some ([105, 100], r) := by
    intro r; simp [parseString, parseStringBody]
  have hk2 : ∀ r, parseString (99 :: 109 :: 100 :: 34 :: r) = some ([99, 109, 100], r) := by
    intro r; simp [parseString, parseStringBody]
  have hsp1 : ∀ r, skipSpace (58 :: r) = 58 :: r := by intro r; simp [skipSpace, isSpace]
  have hsp2 : ∀ r, skipSpace (44 :: r) = 44 :: r := by intro r; simp [skipSpace, isSpace]
  have hsp3 : ∀ r, skipSpace (34 :: r) = 34 :: r := by intro r; simp [skipSpace, isSpace]
  have hsp4 : ∀ r, skipSpace (125 :: r) = 125 :: r := by intro r; simp [skipSpace, isSpace]
  rw [parseMembers]
  simp only [if_true, hk1, hsp1, skipSpace_formatInt, storeField_id _ _ hi, hsp2, hsp3]
  rw [parseMembers]
  simp only [if_true, hk2, hsp1, skipSpace_appendString, storeField_cmd _ _ hs, hsp4,
    if_neg (show ¬ (125 = 44) by decide)]

theorem parseData_marshalData (d : Data) (hi : IsInt64 d.ID) (hv : validString d.Cmd = true)
    (rest : List Nat) : parseData (marshalData d ++ rest) = some (d, rest) := by
  have hs := validString_valid d.Cmd hv
  rw [marshalData_append]
  have hsp3 : ∀ r, skipSpace (34 :: r) = 34 :: r := by intro r; simp [skipSpace, isSpace]
  simp only [parseData, if_true, hsp3, if_neg (show ¬ (34 = 125) by decide), List.length_cons]
  exact parseMembers_marshalData _ d hi hs rest

/-! ## The list -/

theorem marshalElems_cons (d : Data) (ds : List Data) (rest : List Nat) :
    ∃ tail, marshalElems (d :: ds) ++ rest = 123 :: tail ∧
      (d :: ds).length ≤ tail.length := by
  induction ds generalizing d rest with
  | nil =>
    refine ⟨_, by rw [marshalElems, marshalData_append], ?_⟩
    simp
  | cons d2 ds ih =>
    obtain ⟨tail2, h2, hl2⟩ := ih d2 rest
    have hm : marshalElems (d :: d2 :: ds) ++ rest =
        marshalData d ++ (44 :: (marshalElems (d2 :: ds) ++ rest)) := by
      simp [marshalElems]
    refine ⟨_, by rw [hm, marshalData_append], ?_⟩
    rw [h2]
    simp only [List.length_cons, List.length_append] at hl2 ⊢
    omega

theorem skipSpace_brace (tail : List Nat) : skipSpace (123 :: tail) = 123 :: tail := by
  simp [skipSpace, isSpace]

theorem parseElems_marshalElems (d : Data) (ds : List Data) (fuel : Nat) (rest : List Nat)
    (hf : (d :: ds).length ≤ fuel) (hwf : ∀ x ∈ d :: ds, x.WellFormed) :
    parseElems fuel (marshalElems (d :: ds) ++ 93 :: rest) = some (d :: ds, rest) := by
  induction ds generalizing d fuel with
  | nil =>
    obtain ⟨f, rfl⟩ : ∃ f, fuel = f + 1 := ⟨fuel - 1, by simp at hf; omega⟩
    obtain ⟨hi, hs⟩ := hwf d (List.mem_cons_self _ _)
    have hsp : skipSpace (93 :: rest) = 93 :: rest := by simp [skipSpace, isSpace]
    simp only [marshalElems, parseElems, parseData_marshalData d hi hs, hsp,
      if_neg (show ¬ (93 = 44) by decide), if_true]
  | cons d2 ds ih =>
    obtain ⟨f, rfl⟩ : ∃ f, fuel = f + 1 := ⟨fuel - 1, by simp at hf; omega⟩
    obtain ⟨hi, hs⟩ := hwf d (List.mem_cons_self _ _)
    have hm : marshalElems (d :: d2 :: ds) ++ 93 :: rest =
        marshalData d ++ (44 :: (marshalElems (d2 :: ds) ++ 93 :: rest)) := by
      simp [marshalElems]
    have hsp : ∀ r, skipSpace (44 :: r) = 44 :: r := by intro r; simp [skipSpace, isSpace]
    obtain ⟨tail, ht, -⟩ := marshalElems_cons d2 ds (93 :: rest)
    have hsp2 : skipSpace (marshalElems (d2 :: ds) ++ 93 :: rest) =
        marshalElems (d2 :: ds) ++ 93 :: rest := by
      rw [ht]; exact skipSpace_brace tail
    have ih2 := ih d2 f (by simp at hf ⊢; omega)
      (fun x hx => hwf x (List.mem_cons_of_mem _ hx))
    rw [hm]
    simp only [parseElems, parseData_marshalData d hi hs, hsp, if_true, hsp2, ih2,
      Option.map_some']

theorem jsonUnmarshal_jsonMarshal (L : List Data) (hwf : ∀ d ∈ L, d.WellFormed) :
    jsonUnmarshal (jsonMarshal L) = some L := by
  cases L with
  | nil => decide
  | cons d ds =>
    obtain ⟨tail, ht, hl⟩ := marshalElems_cons d ds [93]
    have hp := parseElems_marshalElems d ds (123 :: tail).length [] (by simp at hl ⊢; omega) hwf
    rw [ht] at hp
    have hj : jsonMarshal (d :: ds) = 91 :: 123 :: tail := by
      simp only [jsonMarshal, List.cons_append, List.nil_append, ← ht]
    have hsp : skipSpace (91 :: 123 :: tail) = 91 :: 123 :: tail := by simp [skipSpace, isSpace]
    rw [jsonUnmarshal, hj, hsp]
    simp only [parseTop, if_true, skipSpace_brace, if_neg (show ¬ (123 = 93) by decide), hp]
    rfl

theorem jsonMarshal_length_pos (L : List Data) : (jsonMarshal L).length ≠ 0 := by
  cases L with
  | nil => decide
  | cons d ds => simp [jsonMarshal]

/-- C2 (amended): for every list whose entries have a position in the range of `int` and
a command that is well-formed UTF-8, decoding the text that `json.Marshal` writes succeeds
and gives the list back, directly and through `writeToFile` and `readFromJSON`. -/
theorem marshal_unmarshal_roundtrip (L : List Data) (hwf : ∀ d ∈ L, d.WellFormed) :
    jsonUnmarshal (jsonMarshal L) = some L ∧
    readFromJSON (writeToFile (jsonMarshal L)) = (some L, some (jsonMarshal L)) := by
  have h := jsonUnmarshal_jsonMarshal L hwf
  refine ⟨h, ?_⟩
  simp only [readFromJSON, writeToFile, Option.getD_some, if_neg (jsonMarshal_length_pos L), h]

/-- Witness of `marshal_unmarshal_roundtrip`: an entry with a plain command and one with
a negative position and the command `é<` followed by a line feed and a double quote. -/
theorem marshal_unmarshal_roundtrip_witness :
    (∀ d ∈ [(⟨0, lit "ls"⟩ : Data), ⟨-7, [0xC3, 0xA9, 60, 10, 34]⟩], d.WellFormed) ∧
    jsonUnmarshal (jsonMarshal [⟨0, lit "ls"⟩, ⟨-7, [0xC3, 0xA9, 60, 10, 34]⟩]) =
      some [⟨0, lit "ls"⟩, ⟨-7, [0xC3, 0xA9, 60, 10, 34]⟩] :=
  ⟨by decide,
    (marshal_unmarshal_roundtrip [⟨0, lit "ls"⟩, ⟨-7, [0xC3, 0xA9, 60, 10, 34]⟩]
      (by decide)).1⟩

/-- C2 as stated fails: a command that is not well-formed UTF-8, here the single byte
0xFF, is written as the escape of U+FFFD and read back as the three bytes EF BF BD. -/
theorem roundtrip_counterexample :
    jsonMarshal [⟨0, [0xFF]⟩] = lit "[\x7b\"id\":0,\"cmd\":\"\\ufffd\"\x7d]" ∧
    jsonUnmarshal (jsonMarshal [⟨0, [0xFF]⟩]) = some [⟨0, [0xEF, 0xBF, 0xBD]⟩] ∧
    jsonUnmarshal (jsonMarshal [⟨0, [0xFF]⟩]) ≠ some [⟨0, [0xFF]⟩] ∧
    validString [0xFF] = false := by
  decide

end Cla
